import Mathlib

/-!
Verification of the GrapeTree WASM tree-inference core.

Shallow embedding of the C++ sources:
  * `src/cpp/distance.cpp`  — distance engine (symmetric, asymmetric, p-distance)
  * `src/cpp/mstree.cpp`    — classical Prim MST with eBurst/harmonic tiebreaks
  * `src/cpp/mstree_v2.cpp` — directed minimum arborescence with cycle
    contraction and branch recrafting
  * `src/cpp/newick.cpp`    — Newick serializer
  * `src/cpp/wasm_interface.cpp` — request façade `compute_tree`

C++ `double` values are modelled as exact rationals (`ℚ`): every distance the
engine manipulates is a half-integer or a quotient of small integers, and the
comparisons the algorithms perform are exact on these values.  `DBL_MAX` is
modelled by its exact rational value.  Definitions named `spec...` transcribe
the specification's wording and exist only to be compared with the embedded
code.
-/

namespace GrapeTree

/-- The absolute floating tolerance `1e-10` used by every tie comparison in the
source. -/
def tol : ℚ := 1 / 10 ^ 10

/-- Exact value of IEEE-754 `DBL_MAX` (`std::numeric_limits<double>::max()`),
used by the source as an "unrepresentably large" sentinel.  Computed at the
`ℕ` level so that concrete proofs can evaluate it. -/
def dblMax : ℚ := ((2 ^ 1024 - 2 ^ 971 : ℕ) : ℚ)

/-- `DistanceMatrix::ProfileData` from `distance.cpp`. -/
structure ProfileData where
  strain_names : List String
  profiles : List (List Int)
  n_strains : Nat
  n_genes : Nat
deriving Repr, DecidableEq

/-- `MissingHandler` wire value 0 (`IGNORE`). -/
def IGNORE : Int := 0

/-- `MissingHandler` wire value 1 (`REMOVE_COLUMN`). -/
def REMOVE_COLUMN : Int := 1

/-- `MissingHandler` wire value 2 (`TREAT_AS_ALLELE`). -/
def TREAT_AS_ALLELE : Int := 2

/-- `MissingHandler` wire value 3 (`ABSOLUTE_DIFF`). -/
def ABSOLUTE_DIFF : Int := 3

/-- One iteration of the locus loop of
`DistanceMatrix::compute_pairwise_distance` (distance.cpp:114-154).
State is the pair `(differences, valid_positions)`.  The C++ `switch` has
explicit `IGNORE` and `REMOVE_COLUMN` cases that both `continue`; an
out-of-range handler value matches no case and also skips the locus, so all
three fall into the final branch here. -/
def pairwiseStep (handler : Int) (profile1 profile2 : List Int)
    (st : Nat × Nat) (k : Nat) : Nat × Nat :=
  let allele1 := profile1.getD k 0
  let allele2 := profile2.getD k 0
  let missing1 : Bool := decide (allele1 ≤ 0)
  let missing2 : Bool := decide (allele2 ≤ 0)
  if missing1 || missing2 then
    if handler = TREAT_AS_ALLELE then
      (if missing1 != missing2 || (!missing1 && allele1 != allele2)
        then st.1 + 1 else st.1, st.2 + 1)
    else if handler = ABSOLUTE_DIFF then
      (st.1 + 1, st.2 + 1)
    else
      st
  else
    (if allele1 ≠ allele2 then st.1 + 1 else st.1, st.2 + 1)

/-- `DistanceMatrix::compute_pairwise_distance` (distance.cpp:106-157): runs
the locus loop and returns `differences` as a real. -/
def computePairwiseDistance (nGenes : Nat) (profile1 profile2 : List Int)
    (handler : Int) : ℚ :=
  (((List.range nGenes).foldl (pairwiseStep handler profile1 profile2)
    (0, 0)).1 : ℚ)

/-- One iteration of the locus loop of
`DistanceMatrix::compute_directional_distance` (distance.cpp:167-178).
State is `(differences, missing_in_from)`. -/
def directionalStep (fromProfile toProfile : List Int)
    (st : Nat × Nat) (k : Nat) : Nat × Nat :=
  let fromAllele := fromProfile.getD k 0
  let toAllele := toProfile.getD k 0
  if fromAllele ≤ 0 then
    (st.1, st.2 + 1)
  else if toAllele > 0 ∧ fromAllele ≠ toAllele then
    (st.1 + 1, st.2)
  else
    st

/-- `DistanceMatrix::compute_directional_distance` (distance.cpp:160-184):
`differences + 0.5 * missing_in_from`. -/
def computeDirectionalDistance (nGenes : Nat)
    (fromProfile toProfile : List Int) : ℚ :=
  let st := (List.range nGenes).foldl (directionalStep fromProfile toProfile)
    (0, 0)
  (st.1 : ℚ) + (1 / 2) * (st.2 : ℚ)

/-- One iteration of the position loop of `DistanceMatrix::p_distance`
(distance.cpp:198-211).  State is `(differences, valid_positions)`. -/
def pDistanceStep (st : Nat × Nat) (cc : Char × Char) : Nat × Nat :=
  let c1 := cc.1.toUpper
  let c2 := cc.2.toUpper
  if c1 = '-' ∨ c1 = 'N' ∨ c2 = '-' ∨ c2 = 'N' then st
  else if c1 ≠ c2 then (st.1 + 1, st.2 + 1)
  else (st.1, st.2 + 1)

/-- `DistanceMatrix::p_distance` (distance.cpp:187-219). -/
def pDistance (seq1 seq2 : List Char) : ℚ :=
  if seq1.length ≠ seq2.length then dblMax
  else
    let st := (List.zip seq1 seq2).foldl pDistanceStep (0, 0)
    if st.2 = 0 then 0 else (st.1 : ℚ) / (st.2 : ℚ)

/-- Entry read of a matrix represented as a list of rows (out-of-range reads
default to `0`, matching the fact that the source never reads out of range). -/
def getEntry (m : List (List ℚ)) (i j : Nat) : ℚ := (m.getD i []).getD j 0

/-- Single entry assignment `matrix[i][j] = v`. -/
def setEntry (m : List (List ℚ)) (i j : Nat) (v : ℚ) : List (List ℚ) :=
  m.set i ((m.getD i []).set j v)

/-- The index pairs `(i, j)` with `i < j < n`, in the iteration order of the
double loop in `compute_symmetric` (distance.cpp:45-55). -/
def symPairs (n : Nat) : List (Nat × Nat) :=
  (List.range n).flatMap (fun i =>
    (List.range' (i + 1) (n - (i + 1))).map (fun j => (i, j)))

/-- All index pairs `(i, j)` with `i, j < n` in row-major order, the iteration
order of the double loop in `compute_asymmetric` (distance.cpp:67-78). -/
def allPairs (n : Nat) : List (Nat × Nat) :=
  (List.range n).flatMap (fun i => (List.range n).map (fun j => (i, j)))

/-- `DistanceMatrix::compute_symmetric` (distance.cpp:37-58): a zero matrix in
which each unordered pair `(i, j)`, `i < j`, receives the pairwise distance at
both `(i, j)` and `(j, i)`. -/
def computeSymmetric (data : ProfileData) (handler : Int) : List (List ℚ) :=
  let n := data.n_strains
  (symPairs n).foldl (fun m p =>
      let dist := computePairwiseDistance data.n_genes
        (data.profiles.getD p.1 []) (data.profiles.getD p.2 []) handler
      setEntry (setEntry m p.1 p.2 dist) p.2 p.1 dist)
    (List.replicate n (List.replicate n (0 : ℚ)))

/-- `DistanceMatrix::compute_asymmetric` (distance.cpp:61-81). -/
def computeAsymmetric (data : ProfileData) : List (List ℚ) :=
  let n := data.n_strains
  (allPairs n).foldl (fun m p =>
      if p.1 = p.2 then
        setEntry m p.1 p.2 0
      else
        setEntry m p.1 p.2 (computeDirectionalDistance data.n_genes
          (data.profiles.getD p.1 []) (data.profiles.getD p.2 [])))
    (List.replicate n (List.replicate n (0 : ℚ)))

/-! ### Basic matrix lemmas -/

theorem length_setEntry (m : List (List ℚ)) (i j : Nat) (v : ℚ) :
    (setEntry m i j v).length = m.length :=
  List.length_set m i _

theorem getD_set_self {α : Type} (l : List α) (i : Nat) (x d : α)
    (h : i < l.length) : (l.set i x).getD i d = x := by
  rw [List.getD_eq_getElem?_getD, List.getElem?_set_self h]
  rfl

theorem getD_set_ne {α : Type} (l : List α) {i a : Nat} (x d : α)
    (h : i ≠ a) : (l.set i x).getD a d = l.getD a d := by
  rw [List.getD_eq_getElem?_getD, List.getElem?_set_ne h,
    ← List.getD_eq_getElem?_getD]

theorem getD_set_oob {α : Type} (l : List α) {i : Nat} (a : Nat) (x d : α)
    (h : ¬ i < l.length) : (l.set i x).getD a d = l.getD a d := by
  rw [List.set_eq_of_length_le (Nat.le_of_not_lt h)]

theorem getD_replicate {α : Type} (n : Nat) (x d : α) (a : Nat) :
    (List.replicate n x).getD a d = if a < n then x else d := by
  rw [List.getD_eq_getElem?_getD, List.getElem?_replicate]
  split <;> rfl

theorem getEntry_setEntry_ne (m : List (List ℚ)) {i j a b : Nat} (v : ℚ)
    (h : ¬(a = i ∧ b = j)) :
    getEntry (setEntry m i j v) a b = getEntry m a b := by
  unfold getEntry setEntry
  by_cases hai : i = a
  · subst hai
    by_cases hlen : i < m.length
    · rw [getD_set_self _ _ _ _ hlen]
      have hbj : j ≠ b := fun hb => h ⟨rfl, hb.symm⟩
      rw [getD_set_ne _ _ _ hbj]
    · rw [getD_set_oob _ _ _ _ hlen]
  · rw [getD_set_ne _ _ _ hai]

theorem getEntry_setEntry_self (m : List (List ℚ)) {i j : Nat} (v : ℚ)
    (hi : i < m.length) (hj : j < (m.getD i []).length) :
    getEntry (setEntry m i j v) i j = v := by
  unfold getEntry setEntry
  rw [getD_set_self _ _ _ _ hi, getD_set_self _ _ _ _ hj]

/-- Shape invariant of the matrices the engine builds: `n` rows of length `n`. -/
def MatWf (n : Nat) (m : List (List ℚ)) : Prop :=
  m.length = n ∧ ∀ r ∈ m, r.length = n

theorem matWf_replicate (n : Nat) :
    MatWf n (List.replicate n (List.replicate n (0 : ℚ))) := by
  refine ⟨List.length_replicate .., fun r hr => ?_⟩
  rw [List.eq_of_mem_replicate hr]
  exact List.length_replicate ..

theorem MatWf.row_length {n : Nat} {m : List (List ℚ)} (h : MatWf n m)
    {i : Nat} (hi : i < n) : (m.getD i []).length = n := by
  have hi' : i < m.length := h.1 ▸ hi
  rw [List.getD_eq_getElem?_getD, List.getElem?_eq_getElem hi']
  exact h.2 _ (List.getElem_mem hi')

theorem MatWf.setEntry {n : Nat} {m : List (List ℚ)} (h : MatWf n m)
    {i : Nat} (j : Nat) (v : ℚ) (hi : i < n) :
    MatWf n (GrapeTree.setEntry m i j v) := by
  refine ⟨(length_setEntry m i j v).trans h.1, fun r hr => ?_⟩
  rcases List.mem_or_eq_of_mem_set hr with hr | rfl
  · exact h.2 r hr
  · rw [List.length_set]
    exact h.row_length hi

theorem getEntry_replicate (n a b : Nat) :
    getEntry (List.replicate n (List.replicate n (0 : ℚ))) a b = 0 := by
  unfold getEntry
  rw [getD_replicate]
  by_cases ha : a < n
  · rw [if_pos ha, getD_replicate]
    split <;> rfl
  · rw [if_neg ha]
    rfl

/-! ### Write-once characterization of the matrix-building folds -/

theorem getEntry_foldl_set_notmem (val : Nat × Nat → ℚ) (l : List (Nat × Nat))
    (m0 : List (List ℚ)) (a b : Nat)
    (h : ∀ p ∈ l, ¬(p.1 = a ∧ p.2 = b)) :
    getEntry (l.foldl (fun m p => setEntry m p.1 p.2 (val p)) m0) a b =
      getEntry m0 a b := by
  induction l generalizing m0 with
  | nil => rfl
  | cons p rest ih =>
      rw [List.foldl_cons, ih _ (fun q hq => h q (List.mem_cons_of_mem _ hq))]
      exact getEntry_setEntry_ne m0 _ (fun ⟨h1, h2⟩ =>
        h p (List.mem_cons_self ..) ⟨h1.symm, h2.symm⟩)

theorem getEntry_foldl_set_mem {n : Nat} (val : Nat × Nat → ℚ)
    {l : List (Nat × Nat)} (hnd : l.Nodup)
    (hl : ∀ p ∈ l, p.1 < n ∧ p.2 < n) {m0 : List (List ℚ)} (hwf : MatWf n m0)
    {a b : Nat} (hab : (a, b) ∈ l) :
    getEntry (l.foldl (fun m p => setEntry m p.1 p.2 (val p)) m0) a b =
      val (a, b) := by
  induction l generalizing m0 with
  | nil => cases hab
  | cons p rest ih =>
      rw [List.foldl_cons]
      rcases List.mem_cons.mp hab with rfl | hmem
      · have hnotin : (a, b) ∉ rest := (List.nodup_cons.mp hnd).1
        rw [getEntry_foldl_set_notmem _ _ _ _ _ (fun q hq hqe => by
          apply hnotin
          have : q = (a, b) := Prod.ext hqe.1 hqe.2
          exact this ▸ hq)]
        have ha : a < n := (hl _ (List.mem_cons_self ..)).1
        have hb : b < n := (hl _ (List.mem_cons_self ..)).2
        exact getEntry_setEntry_self m0 _ (hwf.1 ▸ ha) ((hwf.row_length ha) ▸ hb)
      · exact ih (List.nodup_cons.mp hnd).2
          (fun q hq => hl q (List.mem_cons_of_mem _ hq))
          (hwf.setEntry _ _ (hl p (List.mem_cons_self ..)).1) hmem

theorem getEntry_foldl_set2_notmem (val : Nat × Nat → ℚ) (l : List (Nat × Nat))
    (m0 : List (List ℚ)) (a b : Nat)
    (h : ∀ p ∈ l, ¬(p.1 = a ∧ p.2 = b) ∧ ¬(p.2 = a ∧ p.1 = b)) :
    getEntry (l.foldl
        (fun m p => setEntry (setEntry m p.1 p.2 (val p)) p.2 p.1 (val p)) m0)
      a b = getEntry m0 a b := by
  induction l generalizing m0 with
  | nil => rfl
  | cons p rest ih =>
      rw [List.foldl_cons, ih _ (fun q hq => h q (List.mem_cons_of_mem _ hq))]
      have h1 := (h p (List.mem_cons_self ..)).1
      have h2 := (h p (List.mem_cons_self ..)).2
      rw [getEntry_setEntry_ne _ _ (fun ⟨x, y⟩ => h2 ⟨x.symm, y.symm⟩)]
      exact getEntry_setEntry_ne _ _ (fun ⟨x, y⟩ => h1 ⟨x.symm, y.symm⟩)

theorem getEntry_foldl_set2_mem {n : Nat} (val : Nat × Nat → ℚ)
    {l : List (Nat × Nat)} (hnd : l.Nodup)
    (hl : ∀ p ∈ l, p.1 < p.2 ∧ p.2 < n) {m0 : List (List ℚ)} (hwf : MatWf n m0)
    {a b : Nat} (hab : (a, b) ∈ l) :
    getEntry (l.foldl
        (fun m p => setEntry (setEntry m p.1 p.2 (val p)) p.2 p.1 (val p)) m0)
      a b = val (a, b) ∧
    getEntry (l.foldl
        (fun m p => setEntry (setEntry m p.1 p.2 (val p)) p.2 p.1 (val p)) m0)
      b a = val (a, b) := by
  induction l generalizing m0 with
  | nil => cases hab
  | cons p rest ih =>
      rw [List.foldl_cons]
      rcases List.mem_cons.mp hab with rfl | hmem
      · have hda : a < b := (hl _ (List.mem_cons_self ..)).1
        have hb : b < n := (hl _ (List.mem_cons_self ..)).2
        have ha : a < n := Nat.lt_trans hda hb
        have hnotin : (a, b) ∉ rest := (List.nodup_cons.mp hnd).1
        have hrest : ∀ q ∈ rest, ¬(q.1 = a ∧ q.2 = b) ∧ ¬(q.2 = a ∧ q.1 = b) := by
          intro q hq
          constructor
          · intro hqe
            exact hnotin ((Prod.ext hqe.1 hqe.2 : q = (a, b)) ▸ hq)
          · rintro ⟨h2a, h1b⟩
            have := (hl q (List.mem_cons_of_mem _ hq)).1
            omega
        constructor
        · rw [getEntry_foldl_set2_notmem _ _ _ _ _ hrest,
            getEntry_setEntry_ne _ _ (by rintro ⟨h1, h2⟩; omega)]
          exact getEntry_setEntry_self m0 _ (hwf.1 ▸ ha) ((hwf.row_length ha) ▸ hb)
        · rw [getEntry_foldl_set2_notmem _ _ _ _ _ (fun q hq =>
            ⟨fun ⟨x, y⟩ => (hrest q hq).2 ⟨y, x⟩,
             fun ⟨x, y⟩ => (hrest q hq).1 ⟨y, x⟩⟩)]
          have hwf1 : MatWf n (setEntry m0 a b (val (a, b))) := hwf.setEntry _ _ ha
          exact getEntry_setEntry_self _ _ (hwf1.1 ▸ hb) ((hwf1.row_length hb) ▸ ha)
      · exact ih (List.nodup_cons.mp hnd).2
          (fun q hq => hl q (List.mem_cons_of_mem _ hq))
          ((hwf.setEntry _ _ (Nat.lt_trans (hl p (List.mem_cons_self ..)).1
              (hl p (List.mem_cons_self ..)).2)).setEntry _ _
            (hl p (List.mem_cons_self ..)).2) hmem

/-! ### The pair lists -/

theorem mem_symPairs {n a b : Nat} : (a, b) ∈ symPairs n ↔ a < b ∧ b < n := by
  simp only [symPairs, List.mem_flatMap, List.mem_map, List.mem_range,
    List.mem_range', Prod.mk.injEq]
  constructor
  · rintro ⟨i, hi, j, ⟨k, hk, rfl⟩, rfl, rfl⟩
    omega
  · rintro ⟨hab, hb⟩
    exact ⟨a, by omega, b, ⟨b - (a + 1), by omega⟩, rfl, rfl⟩

theorem mem_allPairs {n a b : Nat} : (a, b) ∈ allPairs n ↔ a < n ∧ b < n := by
  simp only [allPairs, List.mem_flatMap, List.mem_map, List.mem_range,
    Prod.mk.injEq]
  constructor
  · rintro ⟨i, hi, j, hj, rfl, rfl⟩
    exact ⟨hi, hj⟩
  · rintro ⟨ha, hb⟩
    exact ⟨a, ha, b, hb, rfl, rfl⟩

theorem nodup_symPairs (n : Nat) : (symPairs n).Nodup := by
  rw [symPairs, List.nodup_flatMap]
  constructor
  · intro i _
    exact List.Nodup.map (fun x y h => congrArg Prod.snd h) (List.nodup_range' ..)
  · refine List.Pairwise.imp ?_ (List.pairwise_lt_range n)
    intro i j hij x hxi hxj
    rcases List.mem_map.mp hxi with ⟨k, _, rfl⟩
    rcases List.mem_map.mp hxj with ⟨k', _, he⟩
    exact absurd ((Prod.mk.injEq ..).mp he).1 (Nat.ne_of_lt hij).symm

theorem nodup_allPairs (n : Nat) : (allPairs n).Nodup := by
  rw [allPairs, List.nodup_flatMap]
  constructor
  · intro i _
    exact List.Nodup.map (fun x y h => congrArg Prod.snd h) (List.nodup_range n)
  · refine List.Pairwise.imp ?_ (List.pairwise_lt_range n)
    intro i j hij x hxi hxj
    rcases List.mem_map.mp hxi with ⟨k, _, rfl⟩
    rcases List.mem_map.mp hxj with ⟨k', _, he⟩
    exact absurd ((Prod.mk.injEq ..).mp he).1 (Nat.ne_of_lt hij).symm

/-! ### Spec-side distance definitions

These transcribe the wording of the specification (and of the claims), to be
compared with the embedded source code. -/

/-- Spec §4.A.2 / claim C2: `D[i][j]` is the number of loci where both values
are present and differ, plus `0.5` times the number of loci missing in the
`from` profile. -/
def specAsymmetricDistance (nGenes : Nat) (p1 p2 : List Int) : ℚ :=
  ((List.range nGenes).countP (fun k =>
      decide (p1.getD k 0 > 0 ∧ p2.getD k 0 > 0 ∧ p1.getD k 0 ≠ p2.getD k 0)) : ℚ)
  + (1 / 2) *
    ((List.range nGenes).countP (fun k => decide (p1.getD k 0 ≤ 0)) : ℚ)

/-- Spec §4.A.1 / claim C3: per-locus contribution of the policy table. -/
def specLocusDiff (handler : Int) (a b : Int) : Nat :=
  if a > 0 ∧ b > 0 then (if a ≠ b then 1 else 0)
  else if handler = 0 ∨ handler = 1 then 0
  else if handler = 2 then
    (if (a ≤ 0 ∧ b > 0) ∨ (a > 0 ∧ b ≤ 0) then 1 else 0)
  else 1

/-- Spec §4.A.1 / claim C3: the pair distance is the total differences count
of the policy table. -/
def specSymmetricDistance (handler : Int) (nGenes : Nat)
    (p1 p2 : List Int) : ℚ :=
  (((List.range nGenes).map (fun k =>
    specLocusDiff handler (p1.getD k 0) (p2.getD k 0))).sum : ℚ)

/-- Claim C9's formula for the p-distance: positions where both characters
are in `{A,C,G,T}` are the valid ones; differing valid positions divided by
valid positions, `0` when none exist. -/
def specPDistanceACGT (seq1 seq2 : List Char) : ℚ :=
  let isACGT : Char → Bool := fun c => c = 'A' ∨ c = 'C' ∨ c = 'G' ∨ c = 'T'
  let valid := (List.zip seq1 seq2).countP (fun cc => isACGT cc.1 && isACGT cc.2)
  let diff := (List.zip seq1 seq2).countP
    (fun cc => isACGT cc.1 && isACGT cc.2 && cc.1 != cc.2)
  if valid = 0 then 0 else (diff : ℚ) / (valid : ℚ)

/-- The amended p-distance formula: a position is valid when neither
uppercased character is `-` or `N`; the distance is differing valid positions
divided by valid positions (`0` when none), and the `DBL_MAX` sentinel for
length-mismatched inputs. -/
def specPDistanceAmended (seq1 seq2 : List Char) : ℚ :=
  if seq1.length ≠ seq2.length then dblMax
  else
    let ok : Char × Char → Bool := fun cc =>
      !(cc.1.toUpper = '-' ∨ cc.1.toUpper = 'N' ∨
        cc.2.toUpper = '-' ∨ cc.2.toUpper = 'N')
    let valid := (List.zip seq1 seq2).countP ok
    let diff := (List.zip seq1 seq2).countP
      (fun cc => ok cc && cc.1.toUpper != cc.2.toUpper)
    if valid = 0 then 0 else (diff : ℚ) / (valid : ℚ)

/-! ### Fold bookkeeping lemmas -/

theorem foldl_fst_add {α : Type} (step : Nat × Nat → α → Nat × Nat)
    (f : α → Nat) (hstep : ∀ st k, (step st k).1 = st.1 + f k) :
    ∀ (l : List α) (st : Nat × Nat),
      (l.foldl step st).1 = st.1 + (l.map f).sum
  | [], st => by simp
  | k :: l, st => by
      rw [List.foldl_cons, foldl_fst_add step f hstep l (step st k), hstep,
        List.map_cons, List.sum_cons, Nat.add_assoc]

theorem foldl_snd_add {α : Type} (step : Nat × Nat → α → Nat × Nat)
    (g : α → Nat) (hstep : ∀ st k, (step st k).2 = st.2 + g k) :
    ∀ (l : List α) (st : Nat × Nat),
      (l.foldl step st).2 = st.2 + (l.map g).sum
  | [], st => by simp
  | k :: l, st => by
      rw [List.foldl_cons, foldl_snd_add step g hstep l (step st k), hstep,
        List.map_cons, List.sum_cons, Nat.add_assoc]

theorem countP_eq_sum_map {α : Type} (p : α → Bool) (l : List α) :
    l.countP p = (l.map (fun a => if p a then 1 else 0)).sum := by
  induction l with
  | nil => rfl
  | cons a l ih =>
      rw [List.countP_cons, List.map_cons, List.sum_cons, ih]
      split <;> omega

/-! ### The directional distance matches the spec formula (claim C2) -/

theorem directionalStep_fst (p1 p2 : List Int) (st : Nat × Nat) (k : Nat) :
    (directionalStep p1 p2 st k).1 = st.1 +
      (if p1.getD k 0 > 0 ∧ p2.getD k 0 > 0 ∧ p1.getD k 0 ≠ p2.getD k 0
        then 1 else 0) := by
  unfold directionalStep
  dsimp only
  split_ifs <;> omega

theorem directionalStep_snd (p1 p2 : List Int) (st : Nat × Nat) (k : Nat) :
    (directionalStep p1 p2 st k).2 = st.2 +
      (if p1.getD k 0 ≤ 0 then 1 else 0) := by
  unfold directionalStep
  dsimp only
  split_ifs <;> omega

theorem computeDirectionalDistance_eq_spec (g : Nat) (p1 p2 : List Int) :
    computeDirectionalDistance g p1 p2 = specAsymmetricDistance g p1 p2 := by
  unfold computeDirectionalDistance specAsymmetricDistance
  dsimp only
  rw [foldl_fst_add _ _ (directionalStep_fst p1 p2),
    foldl_snd_add _ _ (directionalStep_snd p1 p2),
    countP_eq_sum_map, countP_eq_sum_map]
  simp only [Nat.zero_add, decide_eq_true_eq]

/-! ### The pairwise distance matches the policy table (claim C3) -/

theorem pairwiseStep_fst (handler : Int) (p1 p2 : List Int)
    (h4 : handler = 0 ∨ handler = 1 ∨ handler = 2 ∨ handler = 3)
    (st : Nat × Nat) (k : Nat) :
    (pairwiseStep handler p1 p2 st k).1 = st.1 +
      specLocusDiff handler (p1.getD k 0) (p2.getD k 0) := by
  unfold pairwiseStep specLocusDiff TREAT_AS_ALLELE ABSOLUTE_DIFF
  dsimp only
  by_cases ha : p1.getD k 0 ≤ 0 <;> by_cases hb : p2.getD k 0 ≤ 0 <;>
    rcases h4 with rfl | rfl | rfl | rfl <;>
      simp [ha, hb, bne_iff_ne] <;> split_ifs <;> omega

theorem computePairwiseDistance_eq_spec (handler : Int) (g : Nat)
    (p1 p2 : List Int)
    (h4 : handler = 0 ∨ handler = 1 ∨ handler = 2 ∨ handler = 3) :
    computePairwiseDistance g p1 p2 handler =
      specSymmetricDistance handler g p1 p2 := by
  unfold computePairwiseDistance specSymmetricDistance
  rw [foldl_fst_add _ _ (pairwiseStep_fst handler p1 p2 h4), Nat.zero_add]

theorem specLocusDiff_comm (handler : Int) (a b : Int) :
    specLocusDiff handler a b = specLocusDiff handler b a := by
  unfold specLocusDiff
  split_ifs <;> first | rfl | omega

theorem specSymmetricDistance_comm (handler : Int) (g : Nat)
    (p1 p2 : List Int) :
    specSymmetricDistance handler g p1 p2 =
      specSymmetricDistance handler g p2 p1 := by
  unfold specSymmetricDistance
  congr 1
  exact congrArg List.sum (List.map_congr_left fun k _ =>
    specLocusDiff_comm handler _ _)

/-! ### Entry characterization of the two matrix builders -/

theorem getEntry_computeAsymmetric (data : ProfileData) {i j : Nat}
    (hi : i < data.n_strains) (hj : j < data.n_strains) :
    getEntry (computeAsymmetric data) i j =
      if i = j then 0
      else computeDirectionalDistance data.n_genes (data.profiles.getD i [])
        (data.profiles.getD j []) := by
  unfold computeAsymmetric
  dsimp only
  have hbody : (fun (m : List (List ℚ)) (p : Nat × Nat) =>
      if p.1 = p.2 then setEntry m p.1 p.2 0
      else setEntry m p.1 p.2 (computeDirectionalDistance data.n_genes
        (data.profiles.getD p.1 []) (data.profiles.getD p.2 []))) =
      (fun m p => setEntry m p.1 p.2
        (if p.1 = p.2 then 0 else computeDirectionalDistance data.n_genes
          (data.profiles.getD p.1 []) (data.profiles.getD p.2 []))) := by
    funext m p
    split <;> rfl
  rw [hbody, getEntry_foldl_set_mem (n := data.n_strains) _
    (nodup_allPairs _) (fun p hp => mem_allPairs.mp hp)
    (matWf_replicate _) (mem_allPairs.mpr ⟨hi, hj⟩)]

theorem getEntry_computeSymmetric (data : ProfileData) (handler : Int)
    {i j : Nat} (hi : i < data.n_strains) (hj : j < data.n_strains) :
    getEntry (computeSymmetric data handler) i j =
      if i = j then 0
      else if i < j then
        computePairwiseDistance data.n_genes (data.profiles.getD i [])
          (data.profiles.getD j []) handler
      else
        computePairwiseDistance data.n_genes (data.profiles.getD j [])
          (data.profiles.getD i []) handler := by
  unfold computeSymmetric
  dsimp only
  by_cases hij : i = j
  · subst hij
    rw [if_pos rfl]
    rw [getEntry_foldl_set2_notmem _ _ _ _ _ (fun p hp => by
      have := (mem_symPairs.mp hp).1
      exact ⟨fun ⟨h1, h2⟩ => by omega, fun ⟨h1, h2⟩ => by omega⟩)]
    exact getEntry_replicate _ _ _
  · rw [if_neg hij]
    by_cases hlt : i < j
    · rw [if_pos hlt]
      exact (getEntry_foldl_set2_mem (n := data.n_strains) _
        (nodup_symPairs _) (fun p hp => mem_symPairs.mp hp)
        (matWf_replicate _) (mem_symPairs.mpr ⟨hlt, hj⟩)).1
    · rw [if_neg hlt]
      have hgt : j < i := by omega
      exact (getEntry_foldl_set2_mem (n := data.n_strains) _
        (nodup_symPairs _) (fun p hp => mem_symPairs.mp hp)
        (matWf_replicate _) (mem_symPairs.mpr ⟨hgt, hi⟩)).2

/-! ### Claims C2, C3, C6 -/

/-- C2: for every `ProfileData` and every ordered pair `(i, j)` with `i ≠ j`,
the asymmetric matrix entry `D[i][j]` equals the number of loci where both
values are present and differ plus `0.5` times the number of loci missing in
profile `i`, and `D[i][i] = 0`. -/
theorem C2_asymmetric_matrix_entries (data : ProfileData) (i j : Nat)
    (hi : i < data.n_strains) (hj : j < data.n_strains) :
    (i ≠ j → getEntry (computeAsymmetric data) i j =
      specAsymmetricDistance data.n_genes (data.profiles.getD i [])
        (data.profiles.getD j [])) ∧
    getEntry (computeAsymmetric data) i i = 0 := by
  constructor
  · intro hij
    rw [getEntry_computeAsymmetric data hi hj, if_neg hij,
      computeDirectionalDistance_eq_spec]
  · rw [getEntry_computeAsymmetric data hi hi, if_pos rfl]

/-- Scenario 5 input of the spec: `profiles = [[0,0,0],[1,2,3]]`. -/
def dataScenario5 : ProfileData :=
  { strain_names := ["S0", "S1"], profiles := [[0, 0, 0], [1, 2, 3]],
    n_strains := 2, n_genes := 3 }

/-- Witness for C2: on Scenario 5, `D[0][1] = 1.5` and `D[1][0] = 0`. -/
theorem C2_asymmetric_matrix_entries_witness :
    getEntry (computeAsymmetric dataScenario5) 0 1 = 3 / 2 ∧
    getEntry (computeAsymmetric dataScenario5) 1 0 = 0 ∧
    getEntry (computeAsymmetric dataScenario5) 0 0 = 0 := by
  refine ⟨?_, ?_, ?_⟩
  · rw [(C2_asymmetric_matrix_entries dataScenario5 0 1 (by decide)
      (by decide)).1 (by decide)]
    with_unfolding_all decide
  · rw [(C2_asymmetric_matrix_entries dataScenario5 1 0 (by decide)
      (by decide)).1 (by decide)]
    with_unfolding_all decide
  · exact (C2_asymmetric_matrix_entries dataScenario5 0 0 (by decide)
      (by decide)).2

/-- C3: for every `ProfileData`, every missing-data handler in
`{IGNORE, REMOVE_COLUMN, TREAT_AS_ALLELE, ABSOLUTE_DIFF}` and every pair
`(i, j)`, the symmetric matrix satisfies `D[i][j] = D[j][i]`, off-diagonal
entries equal the per-locus differences count of the policy table, and the
diagonal is zero. -/
theorem C3_symmetric_matrix_entries (data : ProfileData) (handler : Int)
    (h4 : handler = 0 ∨ handler = 1 ∨ handler = 2 ∨ handler = 3)
    (i j : Nat) (hi : i < data.n_strains) (hj : j < data.n_strains) :
    getEntry (computeSymmetric data handler) i j =
      getEntry (computeSymmetric data handler) j i ∧
    (i ≠ j → getEntry (computeSymmetric data handler) i j =
      specSymmetricDistance handler data.n_genes (data.profiles.getD i [])
        (data.profiles.getD j [])) ∧
    getEntry (computeSymmetric data handler) i i = 0 := by
  refine ⟨?_, ?_, ?_⟩
  · rw [getEntry_computeSymmetric data handler hi hj,
      getEntry_computeSymmetric data handler hj hi]
    by_cases hij : i = j
    · subst hij; rfl
    · rw [if_neg hij, if_neg (Ne.symm hij)]
      rcases Nat.lt_or_ge i j with hlt | hge
      · rw [if_pos hlt, if_neg (by omega)]
      · have : j < i := by omega
        rw [if_neg (by omega), if_pos this]
  · intro hij
    rw [getEntry_computeSymmetric data handler hi hj, if_neg hij]
    rcases Nat.lt_or_ge i j with hlt | hge
    · rw [if_pos hlt, computePairwiseDistance_eq_spec _ _ _ _ h4]
    · rw [if_neg (by omega), computePairwiseDistance_eq_spec _ _ _ _ h4,
        specSymmetricDistance_comm]
  · rw [getEntry_computeSymmetric data handler hi hi, if_pos rfl]

/-- Scenario 4 input of the spec: `profiles = [[1,2,0],[1,2,3],[1,2,3]]`. -/
def dataScenario4 : ProfileData :=
  { strain_names := ["S0", "S1", "S2"],
    profiles := [[1, 2, 0], [1, 2, 3], [1, 2, 3]],
    n_strains := 3, n_genes := 3 }

/-- Witness for C3: Scenario 4's stated values under IGNORE (`0`) and
ABSOLUTE_DIFF (`3`). -/
theorem C3_symmetric_matrix_entries_witness :
    getEntry (computeSymmetric dataScenario4 0) 0 1 = 0 ∧
    getEntry (computeSymmetric dataScenario4 0) 0 2 = 0 ∧
    getEntry (computeSymmetric dataScenario4 0) 1 2 = 0 ∧
    getEntry (computeSymmetric dataScenario4 3) 0 1 = 1 ∧
    getEntry (computeSymmetric dataScenario4 3) 0 2 = 1 ∧
    getEntry (computeSymmetric dataScenario4 3) 1 2 = 0 := by
  refine ⟨?_, ?_, ?_, ?_, ?_, ?_⟩
  · rw [(C3_symmetric_matrix_entries dataScenario4 0 (by decide) 0 1
      (by decide) (by decide)).2.1 (by decide)]
    with_unfolding_all decide
  · rw [(C3_symmetric_matrix_entries dataScenario4 0 (by decide) 0 2
      (by decide) (by decide)).2.1 (by decide)]
    with_unfolding_all decide
  · rw [(C3_symmetric_matrix_entries dataScenario4 0 (by decide) 1 2
      (by decide) (by decide)).2.1 (by decide)]
    with_unfolding_all decide
  · rw [(C3_symmetric_matrix_entries dataScenario4 3 (by decide) 0 1
      (by decide) (by decide)).2.1 (by decide)]
    with_unfolding_all decide
  · rw [(C3_symmetric_matrix_entries dataScenario4 3 (by decide) 0 2
      (by decide) (by decide)).2.1 (by decide)]
    with_unfolding_all decide
  · rw [(C3_symmetric_matrix_entries dataScenario4 3 (by decide) 1 2
      (by decide) (by decide)).2.1 (by decide)]
    with_unfolding_all decide

theorem pairwiseStep_remove_eq_ignore (p1 p2 : List Int) :
    pairwiseStep REMOVE_COLUMN p1 p2 = pairwiseStep IGNORE p1 p2 := by
  funext st k
  unfold pairwiseStep TREAT_AS_ALLELE ABSOLUTE_DIFF REMOVE_COLUMN IGNORE
  dsimp only
  split_ifs <;> first | rfl | (exfalso; omega)

theorem computePairwiseDistance_remove_eq_ignore (g : Nat)
    (p1 p2 : List Int) :
    computePairwiseDistance g p1 p2 REMOVE_COLUMN =
      computePairwiseDistance g p1 p2 IGNORE := by
  unfold computePairwiseDistance
  rw [pairwiseStep_remove_eq_ignore]

/-- C6: for every `ProfileData`, the symmetric matrix computed with handler
`REMOVE_COLUMN` is equal, entry for entry, to the one computed with handler
`IGNORE` (both skip any locus with a missing value in the pair). -/
theorem C6_remove_column_eq_ignore (data : ProfileData) :
    computeSymmetric data REMOVE_COLUMN = computeSymmetric data IGNORE := by
  unfold computeSymmetric
  dsimp only
  refine congrArg
    (fun f : List (List ℚ) → Nat × Nat → List (List ℚ) =>
      List.foldl f
        (List.replicate data.n_strains (List.replicate data.n_strains (0 : ℚ)))
        (symPairs data.n_strains)) ?_
  funext m p
  rw [computePairwiseDistance_remove_eq_ignore]

/-! ### Claim C9: the p-distance -/

theorem pDistanceStep_fst (st : Nat × Nat) (cc : Char × Char) :
    (pDistanceStep st cc).1 = st.1 +
      (if (!decide (cc.1.toUpper = '-' ∨ cc.1.toUpper = 'N' ∨
            cc.2.toUpper = '-' ∨ cc.2.toUpper = 'N')) &&
          (cc.1.toUpper != cc.2.toUpper) then 1 else 0) := by
  unfold pDistanceStep
  dsimp only
  by_cases hskip : cc.1.toUpper = '-' ∨ cc.1.toUpper = 'N' ∨
      cc.2.toUpper = '-' ∨ cc.2.toUpper = 'N'
  · simp [hskip]
  · push_neg at hskip
    obtain ⟨h1, h2, h3, h4⟩ := hskip
    by_cases hne : cc.1.toUpper = cc.2.toUpper <;>
      simp [h1, h2, h3, h4, hne]

theorem pDistanceStep_snd (st : Nat × Nat) (cc : Char × Char) :
    (pDistanceStep st cc).2 = st.2 +
      (if (!decide (cc.1.toUpper = '-' ∨ cc.1.toUpper = 'N' ∨
            cc.2.toUpper = '-' ∨ cc.2.toUpper = 'N')) then 1 else 0) := by
  unfold pDistanceStep
  dsimp only
  by_cases hskip : cc.1.toUpper = '-' ∨ cc.1.toUpper = 'N' ∨
      cc.2.toUpper = '-' ∨ cc.2.toUpper = 'N'
  · simp [hskip]
  · push_neg at hskip
    obtain ⟨h1, h2, h3, h4⟩ := hskip
    by_cases hne : cc.1.toUpper = cc.2.toUpper <;>
      simp [h1, h2, h3, h4, hne]

/-- C9 counterexample: the claim states the p-distance counts only positions
where both characters are in `{A,C,G,T}`; the source excludes only `-` and
`N`.  On `seq1 = "X"`, `seq2 = "A"` the code returns `1` while the claim's
formula gives `0` (no position has both characters in `{A,C,G,T}`). -/
theorem C9_p_distance_counterexample :
    pDistance ['X'] ['A'] = 1 ∧ specPDistanceACGT ['X'] ['A'] = 0 := by
  constructor <;> with_unfolding_all decide

/-- C9 amended: the p-distance equals the number of positions where neither
uppercased character is `-` or `N` and the uppercased characters differ,
divided by the number of positions where neither uppercased character is `-`
or `N`; it is `0` when no such valid position exists, and the `DBL_MAX`
sentinel for sequences of unequal lengths. -/
theorem C9_p_distance_amended (seq1 seq2 : List Char) :
    pDistance seq1 seq2 = specPDistanceAmended seq1 seq2 := by
  unfold pDistance specPDistanceAmended
  by_cases hlen : seq1.length ≠ seq2.length
  · rw [if_pos hlen, if_pos hlen]
  · rw [if_neg hlen, if_neg hlen]
    dsimp only
    rw [foldl_fst_add _ _ pDistanceStep_fst, foldl_snd_add _ _ pDistanceStep_snd,
      countP_eq_sum_map, countP_eq_sum_map]
    simp only [Nat.zero_add, Bool.and_comm]

/-! ### MSTreeV2 (mstree_v2.cpp): directed minimum arborescence -/

/-- `Edge` from mstree.cpp:15-21 (C++ field `from` is a Lean keyword, hence
`fr`). -/
structure Edge where
  fr : Nat
  eto : Nat
  distance : ℚ
deriving Repr, DecidableEq, Inhabited

/-- `MSTree::compute_harmonic_mean_score` (mstree.cpp:191-211).  State is
`(sum_reciprocals, count)`. -/
def computeHarmonicMeanScore (D : List (List ℚ)) (nNodes node : Nat) : ℚ :=
  let st := (List.range nNodes).foldl (fun (st : ℚ × Nat) i =>
    if i = node then st
    else
      let dist := getEntry D node i
      if dist > 0 then (st.1 + 1 / dist, st.2 + 1) else st) ((0 : ℚ), (0 : Nat))
  if st.2 = 0 then 0 else (st.2 : ℚ) / st.1

/-- `MSTreeV2::harmonic_mean_score` (mstree_v2 section, mstree.cpp:304-319) —
textually the same computation as `MSTree::compute_harmonic_mean_score`. -/
def harmonicMeanScore (D : List (List ℚ)) (nNodes node : Nat) : ℚ :=
  computeHarmonicMeanScore D nNodes node

/-- One iteration of the `from` scan of
`MSTreeV2::find_minimum_incoming_edges` (mstree.cpp:277-294).  State is
`(min_dist, best_from, best_score)`. -/
def minIncomingStep (D : List (List ℚ)) (n tgt : Nat) (st : ℚ × Int × ℚ)
    (fr : Nat) : ℚ × Int × ℚ :=
  if fr = tgt then st
  else
    let dist := getEntry D fr tgt
    if dist < st.1 then (dist, (fr : Int), harmonicMeanScore D n fr)
    else if |dist - st.1| < tol then
      let score := harmonicMeanScore D n fr
      if score > st.2.2 then (st.1, (fr : Int), score) else st
    else st

/-- The final `(min_dist, best_from, best_score)` state of the scan for one
`to`. -/
def minIncomingState (D : List (List ℚ)) (n tgt : Nat) : ℚ × Int × ℚ :=
  (List.range n).foldl (minIncomingStep D n tgt) (dblMax, -1, -1)

/-- `MSTreeV2::find_minimum_incoming_edges` (mstree.cpp:268-302): node 0 is
the root; each `to ∈ 1..n-1` contributes its best incoming edge when one was
found. -/
def findMinimumIncomingEdges (D : List (List ℚ)) (n : Nat) : List Edge :=
  ((List.range n).drop 1).flatMap (fun tgt =>
    let st := minIncomingState D n tgt
    if st.2.1 ≠ -1 then [⟨st.2.1.toNat, tgt, st.1⟩] else [])

/-- `MSTreeV2::find_root` (mstree.cpp:345-350), without path compression —
compression only speeds up later lookups and never changes a root; the
recursion is fuelled by the forest height, at most `parent.length`. -/
def findRootUF (parent : List Nat) : Nat → Nat → Nat
  | 0, node => node
  | fuel + 1, node =>
      let p := parent.getD node node
      if p = node then node else findRootUF parent fuel p

/-- `MSTreeV2::mark_cycle` (mstree.cpp:352-377): walk backward along the
picked edges from `start`, assigning cycle id `id`, until a node repeats or
has no incoming edge.  Fuelled: each step adds a fresh node to `visited`. -/
def markCycle (edges : List Edge) :
    Nat → List Nat → Nat → List Int → Int → List Int
  | 0, _, _, cycleId, _ => cycleId
  | fuel + 1, visited, current, cycleId, id =>
      if current ∈ visited then cycleId
      else
        let cycleId := cycleId.set current id
        match edges.find? (fun e => e.eto = current) with
        | some e => markCycle edges fuel (current :: visited) e.fr cycleId id
        | none => cycleId

/-- `MSTreeV2::detect_cycles` (mstree.cpp:322-343).  State is
`(parent, cycle_id, next_cycle_id)`; the union `parent[root_to] = root_from`
happens for every edge. -/
def detectCycles (n : Nat) (edges : List Edge) : List Int :=
  let st := edges.foldl (fun (st : List Nat × List Int × Int) e =>
    let rootFrom := findRootUF st.1 n e.fr
    let rootTo := findRootUF st.1 n e.eto
    if rootFrom = rootTo ∧ st.2.1.getD e.eto (-1) = -1 then
      (st.1.set rootTo rootFrom,
       markCycle edges (n + 1) [] e.eto st.2.1 st.2.2, st.2.2 + 1)
    else
      (st.1.set rootTo rootFrom, st.2.1, st.2.2))
    (List.range n, List.replicate n (-1 : Int), 0)
  st.2.1

/-- `MSTreeV2::has_cycles` (mstree.cpp:379-384). -/
def hasCycles (cycleId : List Int) : Bool :=
  cycleId.any (fun id => id != -1)

/-- The node mapping of `MSTreeV2::contract_and_solve` (mstree.cpp:391-419):
non-cycle vertices receive fresh contracted indices in increasing order, then
each cycle id (they are consecutive from 0) collapses to one fresh index.
Returns the mapping (indexed by original vertex) and the contracted size. -/
def buildNodeMapping (n : Nat) (cycleId : List Int) : List Nat × Nat :=
  let st1 := (List.range n).foldl (fun (st : List Nat × Nat) i =>
      if cycleId.getD i (-1) = -1 then (st.1.set i st.2, st.2 + 1) else st)
    (List.replicate n 0, 0)
  let nCycles := ((cycleId.filter (fun id => id != -1)).dedup).length
  (List.range nCycles).foldl (fun (st : List Nat × Nat) c =>
      ((List.range n).foldl (fun mp i =>
          if cycleId.getD i (-1) = (c : Int) then mp.set i st.2 else mp) st.1,
       st.2 + 1)) st1

/-- `MSTreeV2::can_swap_edges` (mstree.cpp:528-539): the two edges share an
endpoint. -/
def canSwapEdges (tree : List Edge) (idx1 idx2 : Nat) : Bool :=
  let e1 := tree.getD idx1 default
  let e2 := tree.getD idx2 default
  e1.fr = e2.fr ∨ e1.fr = e2.eto ∨ e1.eto = e2.fr ∨ e1.eto = e2.eto

/-- `MSTreeV2::calculate_swap_cost` (mstree.cpp:541-556). -/
def calculateSwapCost (D : List (List ℚ)) (tree : List Edge)
    (idx1 idx2 : Nat) : ℚ :=
  let e1 := tree.getD idx1 default
  let e2 := tree.getD idx2 default
  min (getEntry D e1.fr e2.eto + getEntry D e2.fr e1.eto)
      (getEntry D e1.eto e2.fr + getEntry D e2.eto e1.fr)

/-- `MSTreeV2::perform_edge_swap` (mstree.cpp:558-570): exchange the two `to`
endpoints and recompute both distances from the matrix. -/
def performEdgeSwap (D : List (List ℚ)) (tree : List Edge)
    (idx1 idx2 : Nat) : List Edge :=
  let e1 := tree.getD idx1 default
  let e2 := tree.getD idx2 default
  (tree.set idx1 ⟨e1.fr, e2.eto, getEntry D e1.fr e2.eto⟩).set idx2
    ⟨e2.fr, e1.eto, getEntry D e2.fr e1.eto⟩

/-- One iteration of the pair loop of `MSTreeV2::recraft_branches`
(mstree.cpp:509-524).  State is `(tree, improved)`. -/
def recraftStep (D : List (List ℚ)) (st : List Edge × Bool)
    (p : Nat × Nat) : List Edge × Bool :=
  if canSwapEdges st.1 p.1 p.2 then
    let currentCost := (st.1.getD p.1 default).distance +
      (st.1.getD p.2 default).distance
    let swapCost := calculateSwapCost D st.1 p.1 p.2
    if swapCost < currentCost - tol then (performEdgeSwap D st.1 p.1 p.2, true)
    else st
  else st

/-- One full pass of the double loop of `recraft_branches`; the index pairs
`i < j` in lexicographic order are exactly `symPairs tree.length` (the vector
size is constant during a pass). -/
def recraftPass (D : List (List ℚ)) (tree : List Edge) : List Edge × Bool :=
  (symPairs tree.length).foldl (recraftStep D) (tree, false)

/-- The outer `while (improved && iteration < max_iterations)` loop of
`recraft_branches` with `max_iterations = 10`. -/
def recraftLoop (D : List (List ℚ)) : Nat → List Edge → List Edge
  | 0, tree => tree
  | fuel + 1, tree =>
      let st := recraftPass D tree
      if st.2 then recraftLoop D fuel st.1 else st.1

/-- `MSTreeV2::recraft_branches` (mstree.cpp:499-526). -/
def recraftBranches (D : List (List ℚ)) (tree : List Edge) : List Edge :=
  recraftLoop D 10 tree

/-- `MSTreeV2::contract_and_solve` (mstree.cpp:387-496), parameterized by the
recursive solver used on the contracted matrix.  The `edge_mapping`
`std::map` is modelled as an association list (newest binding first, stale
bindings filtered out on insert). -/
def contractAndSolve (solve : List (List ℚ) → List Edge)
    (D : List (List ℚ)) (n : Nat) (edges : List Edge)
    (cycleId : List Int) : List Edge :=
  let mapping := (buildNodeMapping n cycleId).1
  let newSize := (buildNodeMapping n cycleId).2
  let st := (allPairs n).foldl
    (fun (st : List (List ℚ) × List ((Nat × Nat) × Edge)) p =>
      if p.1 = p.2 then st
      else
        let ni := mapping.getD p.1 0
        let nj := mapping.getD p.2 0
        if ni ≠ nj then
          let dist := getEntry D p.1 p.2
          let reduced := if cycleId.getD p.2 (-1) ≠ -1 then
              dist - (((edges.find? (fun e => e.eto = p.2)).map
                Edge.distance).getD 0)
            else dist
          if reduced < getEntry st.1 ni nj then
            (setEntry st.1 ni nj reduced,
             ((ni, nj), Edge.mk p.1 p.2 dist) ::
               st.2.filter (fun q => q.1 ≠ (ni, nj)))
          else st
        else st)
    (List.replicate newSize (List.replicate newSize dblMax), [])
  let contractedEdges := solve st.1
  let exp := contractedEdges.foldl (fun (st2 : List Edge × List Nat) e =>
      match (st.2.find? (fun q => q.1 = (e.fr, e.eto))).map Prod.snd with
      | some orig => (st2.1 ++ [orig], orig.eto :: st2.2)
      | none => st2) ([], [])
  (edges.foldl (fun (st2 : List Edge × List Nat) e =>
      if e.eto ∈ st2.2 then st2 else (st2.1 ++ [e], e.eto :: st2.2)) exp).1

/-- `MSTreeV2::compute` (mstree.cpp:248-264).  The self-recursion of
`contract_and_solve` is fuelled; each contraction strictly decreases the
vertex count, so fuel `n + 1` suffices on the entry call. -/
def computeV2 : Nat → List (List ℚ) → List Edge
  | 0, _ => []
  | fuel + 1, D =>
      let n := D.length
      let minIncoming := findMinimumIncomingEdges D n
      let cycleId := detectCycles n minIncoming
      let minIncoming :=
        if hasCycles cycleId then
          contractAndSolve (computeV2 fuel) D n minIncoming cycleId
        else minIncoming
      recraftBranches D minIncoming

/-- The `MSTreeV2` entry point: construct on `distances` and `compute`. -/
def mstreeV2Compute (D : List (List ℚ)) : List Edge :=
  computeV2 (D.length + 1) D

/-! ### Claim C10: recrafting preserves incoming-edge counts -/

theorem getD_eq_of_lt {α : Type} (l : List α) (d1 d2 : α) {i : Nat}
    (h : i < l.length) : l.getD i d1 = l.getD i d2 := by
  rw [List.getD_eq_getElem?_getD, List.getD_eq_getElem?_getD,
    List.getElem?_eq_getElem h]
  rfl

theorem countP_set_add {α : Type} (p : α → Bool) :
    ∀ (l : List α) (i : Nat) (x : α), i < l.length →
      (l.set i x).countP p + (if p (l.getD i x) then 1 else 0) =
        l.countP p + (if p x then 1 else 0)
  | a :: l, 0, x, _ => by
      simp only [List.set_cons_zero, List.countP_cons, List.getD_cons_zero]
      split_ifs <;> omega
  | a :: l, i + 1, x, h => by
      simp only [List.set_cons_succ, List.countP_cons, List.getD_cons_succ]
      have hi : i < l.length := by
        simp only [List.length_cons] at h
        omega
      have := countP_set_add p l i x hi
      split_ifs at this ⊢ <;> omega

theorem length_performEdgeSwap (D : List (List ℚ)) (tree : List Edge)
    (i j : Nat) : (performEdgeSwap D tree i j).length = tree.length := by
  unfold performEdgeSwap
  simp [List.length_set]

theorem countP_eto_performEdgeSwap (D : List (List ℚ)) (tree : List Edge)
    (v : Nat) {i j : Nat} (hij : i ≠ j) (hi : i < tree.length)
    (hj : j < tree.length) :
    (performEdgeSwap D tree i j).countP (fun e => e.eto = v) =
      tree.countP (fun e => e.eto = v) := by
  unfold performEdgeSwap
  dsimp only
  generalize he1 : tree.getD i default = e1
  generalize he2 : tree.getD j default = e2
  have h1 := countP_set_add (fun e => decide (e.eto = v)) tree i
    ⟨e1.fr, e2.eto, getEntry D e1.fr e2.eto⟩ hi
  have hlen1 : (tree.set i
      (⟨e1.fr, e2.eto, getEntry D e1.fr e2.eto⟩ : Edge)).length =
      tree.length := List.length_set ..
  have h2 := countP_set_add (fun e => decide (e.eto = v))
    (tree.set i ⟨e1.fr, e2.eto, getEntry D e1.fr e2.eto⟩) j
    ⟨e2.fr, e1.eto, getEntry D e2.fr e1.eto⟩ (hlen1 ▸ hj)
  rw [getD_eq_of_lt tree _ default hi, he1] at h1
  rw [getD_set_ne _ _ _ hij, getD_eq_of_lt tree _ default hj, he2] at h2
  dsimp only at h1 h2
  split_ifs at h1 h2 <;> omega

theorem recraftStep_invariant (D : List (List ℚ)) (v n : Nat)
    (st : List Edge × Bool) (p : Nat × Nat) (hp : p.1 < p.2 ∧ p.2 < n)
    (hlen : st.1.length = n) :
    (recraftStep D st p).1.length = n ∧
    (recraftStep D st p).1.countP (fun e => e.eto = v) =
      st.1.countP (fun e => e.eto = v) := by
  unfold recraftStep
  dsimp only
  split_ifs with h1 h2
  · constructor
    · rw [length_performEdgeSwap]
      exact hlen
    · exact countP_eto_performEdgeSwap D st.1 v (by omega) (by omega)
        (by omega)
  · exact ⟨hlen, rfl⟩
  · exact ⟨hlen, rfl⟩

theorem recraftPass_invariant (D : List (List ℚ)) (v : Nat)
    (tree : List Edge) :
    (recraftPass D tree).1.length = tree.length ∧
    (recraftPass D tree).1.countP (fun e => e.eto = v) =
      tree.countP (fun e => e.eto = v) := by
  unfold recraftPass
  have main : ∀ (l : List (Nat × Nat)),
      (∀ p ∈ l, p.1 < p.2 ∧ p.2 < tree.length) →
      ∀ (st : List Edge × Bool), st.1.length = tree.length →
      (l.foldl (recraftStep D) st).1.length = tree.length ∧
      (l.foldl (recraftStep D) st).1.countP (fun e => e.eto = v) =
        st.1.countP (fun e => e.eto = v) := by
    intro l
    induction l with
    | nil => exact fun _ st h => ⟨h, rfl⟩
    | cons p rest ih =>
        intro hl st hst
        rw [List.foldl_cons]
        have hstep := recraftStep_invariant D v tree.length st p
          (hl p (List.mem_cons_self ..)) hst
        have hrest := ih (fun q hq => hl q (List.mem_cons_of_mem _ hq)) _
          hstep.1
        exact ⟨hrest.1, hrest.2.trans hstep.2⟩
  exact main _ (fun p hp => mem_symPairs.mp hp) (tree, false) rfl

theorem recraftLoop_countP (D : List (List ℚ)) (v : Nat) :
    ∀ (fuel : Nat) (tree : List Edge),
      (recraftLoop D fuel tree).countP (fun e => e.eto = v) =
        tree.countP (fun e => e.eto = v)
  | 0, _ => rfl
  | fuel + 1, tree => by
      unfold recraftLoop
      dsimp only
      split
      · exact (recraftLoop_countP D v fuel _).trans
          (recraftPass_invariant D v tree).2
      · exact (recraftPass_invariant D v tree).2

/-- C10: for every matrix and edge list, `recraft_branches` preserves the
multiset of `to` endpoints — every vertex has exactly the same number of
incoming edges afterwards, because each performed swap only exchanges the
`to` fields of the two edges and recomputes their distances. -/
theorem C10_recraft_preserves_incoming_counts (D : List (List ℚ))
    (tree : List Edge) (v : Nat) :
    (recraftBranches D tree).countP (fun e => e.eto = v) =
      tree.countP (fun e => e.eto = v) :=
  recraftLoop_countP D v 10 tree

/-! ### Claim C1: the arborescence invariant fails on a valid input -/

/-- A valid 3-strain, 7-locus profile (all rows of equal length, values
missing only in strain 2).  Its asymmetric matrix is
`[[0,3,5],[3,0,3],[6,4,0]]`. -/
def dataC1 : ProfileData :=
  { strain_names := ["A", "B", "C"],
    profiles := [[1, 1, 1, 1, 1, 1, 1],
                 [1, 1, 2, 2, 1, 1, 2],
                 [0, 0, 2, 2, 2, 2, 3]],
    n_strains := 3, n_genes := 7 }

set_option maxRecDepth 8000 in
/-- C1 (code bug): on the valid `ProfileData` `dataC1` (N = 3), MSTreeV2's
phase 1 picks edges `0→1` and `1→2`; the recrafting pass then swaps their
`to` endpoints (swap cost `D[0][2] + D[1][1] = 5 < 6 - 1e-10`), producing
the self-loop edge `(1,1)`.  The final output violates `from ≠ to` and is
not an arborescence: vertex 1 has no real incoming edge and 2's is `0→2`. -/
theorem C1_mstreev2_output_violates_arborescence :
    mstreeV2Compute (computeAsymmetric dataC1) =
      [⟨0, 2, 5⟩, ⟨1, 1, 0⟩] ∧
    ∃ e ∈ mstreeV2Compute (computeAsymmetric dataC1), e.fr = e.eto := by
  constructor
  · with_unfolding_all decide
  · with_unfolding_all decide

/-! ### MSTree (mstree.cpp): Prim with tie-break heuristics -/

/-- `MSTree::Heuristic` (mstree.cpp:25-28). -/
inductive Heuristic
  | EBURST
  | HARMONIC
deriving Repr, DecidableEq

/-- The scan computing `min_dist` in `MSTree::compute` (mstree.cpp:68-74). -/
def primMinDist (minDistance : List ℚ) (inTree : List Bool) (n : Nat) : ℚ :=
  (List.range n).foldl (fun acc i =>
    if !(inTree.getD i false) ∧ minDistance.getD i 0 < acc then
      minDistance.getD i 0
    else acc) dblMax

/-- One iteration of `MSTree::apply_eburst_tiebreak`'s candidate loop
(mstree.cpp:142-161).  State is `(best_node, max_connections)`. -/
def eburstStep (D : List (List ℚ)) (n : Nat) (inTree : List Bool)
    (minDist : ℚ) (st : Nat × Nat) (node : Nat) : Nat × Nat :=
  let connections := (List.range n).countP (fun j =>
    (inTree.getD j false) && |getEntry D node j - minDist| < tol)
  if connections > st.2 then (node, connections)
  else if connections = st.2 then
    (if node < st.1 then (node, st.2) else st)
  else st

/-- `MSTree::apply_eburst_tiebreak` (mstree.cpp:134-165). -/
def applyEburstTiebreak (D : List (List ℚ)) (n : Nat) (candidates : List Nat)
    (inTree : List Bool) (minDist : ℚ) : Nat :=
  (candidates.foldl (eburstStep D n inTree minDist)
    (candidates.getD 0 0, 0)).1

/-- One iteration of `MSTree::apply_harmonic_tiebreak`'s candidate loop
(mstree.cpp:174-186).  State is `(best_node, best_score)`. -/
def harmonicTiebreakStep (D : List (List ℚ)) (n : Nat) (st : Nat × ℚ)
    (node : Nat) : Nat × ℚ :=
  let score := computeHarmonicMeanScore D n node
  if score > st.2 then (node, score)
  else if |score - st.2| < tol then
    (if node < st.1 then (node, st.2) else st)
  else st

/-- `MSTree::apply_harmonic_tiebreak` (mstree.cpp:168-189). -/
def applyHarmonicTiebreak (D : List (List ℚ)) (n : Nat)
    (candidates : List Nat) : Nat :=
  (candidates.foldl (harmonicTiebreakStep D n) (candidates.getD 0 0, -1)).1

/-- The tie set collected at mstree.cpp:113-119: the not-in-tree vertices
within the tolerance of `min_dist`. -/
def primCandidates (distances : List ℚ) (inTree : List Bool) (n : Nat)
    (minDist : ℚ) : List Nat :=
  (List.range n).filter (fun i =>
    !(inTree.getD i false) && |distances.getD i 0 - minDist| < tol)

/-- `MSTree::select_node_with_tiebreak` (mstree.cpp:107-131).  (With an empty
tie set the C++ reads `candidates[0]` out of bounds; the model's `getD 0 0`
stands in for that read, which the proofs show unreachable.) -/
def selectNodeWithTiebreak (D : List (List ℚ)) (n : Nat)
    (heuristic : Heuristic) (distances : List ℚ) (inTree : List Bool)
    (minDist : ℚ) : Nat :=
  let candidates := primCandidates distances inTree n minDist
  if candidates.length = 1 then candidates.getD 0 0
  else if heuristic = .EBURST then
    applyEburstTiebreak D n candidates inTree minDist
  else applyHarmonicTiebreak D n candidates

/-- The mutable state of `MSTree::compute`. -/
structure PrimState where
  in_tree : List Bool
  min_distance : List ℚ
  parent : List Int
  tree_edges : List Edge
deriving Repr

/-- One iteration of the relaxation loop of `MSTree::compute`
(mstree.cpp:92-100): update `min_distance[i]` and `parent[i]` when the new
tree vertex offers a shorter connection. -/
def relaxStep (D : List (List ℚ)) (inTree : List Bool) (minNode : Nat)
    (u : List ℚ × List Int) (i : Nat) : List ℚ × List Int :=
  if !(inTree.getD i false) ∧ getEntry D minNode i < u.1.getD i 0 then
    (u.1.set i (getEntry D minNode i), u.2.set i (minNode : Int))
  else u

/-- One iteration of the main loop of `MSTree::compute` (mstree.cpp:66-101):
pick the minimum node with tie-break, add its edge, then relax. -/
def primStep (D : List (List ℚ)) (n : Nat) (heuristic : Heuristic)
    (st : PrimState) : PrimState :=
  let minDist := primMinDist st.min_distance st.in_tree n
  let minNode := selectNodeWithTiebreak D n heuristic st.min_distance
    st.in_tree minDist
  let inTree := st.in_tree.set minNode true
  let edges := st.tree_edges ++
    [(⟨(st.parent.getD minNode (-1)).toNat, minNode, minDist⟩ : Edge)]
  let upd := (List.range n).foldl (relaxStep D inTree minNode)
    (st.min_distance, st.parent)
  { in_tree := inTree, min_distance := upd.1, parent := upd.2,
    tree_edges := edges }

/-- One iteration of the initialization loop of `MSTree::compute`
(mstree.cpp:58-63): seed `min_distance[i]` and `parent[i]` from vertex 0's
row. -/
def primInitStep (D : List (List ℚ)) (u : List ℚ × List Int)
    (i : Nat) : List ℚ × List Int :=
  if i ≠ 0 then (u.1.set i (getEntry D 0 i), u.2.set i 0) else u

/-- The initialization of `MSTree::compute` (mstree.cpp:47-63): vertex 0 is
in the tree and its row seeds `min_distance` and `parent`. -/
def primInit (D : List (List ℚ)) (n : Nat) : PrimState :=
  let inTree := (List.replicate n false).set 0 true
  let minDistance := (List.replicate n dblMax).set 0 0
  let parent := List.replicate n (-1 : Int)
  let st := (List.range n).foldl (primInitStep D) (minDistance, parent)
  { in_tree := inTree, min_distance := st.1, parent := st.2, tree_edges := [] }

/-- `MSTree::compute` (mstree.cpp:43-104).  For `n_nodes_ = 0` the C++
`tree_edges.reserve(n_nodes_ - 1)` wraps to a huge `size_t` and throws
`std::length_error`, surfacing as the failure envelope; this exceptional path
is the `Except` error. -/
def mstreeCompute (D : List (List ℚ)) (heuristic : Heuristic) :
    Except String (List Edge) :=
  let n := D.length
  if n = 0 then .error "vector::reserve"
  else
    .ok ((List.range (n - 1)).foldl (fun st _ => primStep D n heuristic st)
      (primInit D n)).tree_edges

/-! ### Newick serializer (newick.cpp) -/

/-- `NewickFormatter::TreeNode` with its default constructor values. -/
structure TreeNode where
  id : Int
  children : List Nat
  parent : Int
  branch_length : ℚ
deriving Repr, DecidableEq

/-- `TreeNode() : id(-1), parent(-1), branch_length(0.0)`. -/
def TreeNode.init : TreeNode :=
  { id := -1, children := [], parent := -1, branch_length := 0 }

/-- `NewickFormatter::build_tree_structure`: initialize node ids, then push
children / set parent and branch length per edge. -/
def buildTreeStructure (edges : List Edge) (nNodes : Nat) : List TreeNode :=
  let nodes := (List.range nNodes).foldl (fun ns i =>
      ns.set i { TreeNode.init with id := (i : Int) })
    (List.replicate nNodes TreeNode.init)
  edges.foldl (fun ns e =>
    let ns := ns.set e.fr { ns.getD e.fr TreeNode.init with
      children := (ns.getD e.fr TreeNode.init).children ++ [e.eto] }
    ns.set e.eto { ns.getD e.eto TreeNode.init with
      parent := (e.fr : Int), branch_length := e.distance }) nodes

/-- `NewickFormatter::find_root`: the first node with no parent, else the
node with the most children (strict improvement, so ties keep the smallest
index). -/
def findRootNode (nodes : List TreeNode) : Nat :=
  match (List.range nodes.length).find? (fun i =>
      (nodes.getD i TreeNode.init).parent = -1) with
  | some i => i
  | none =>
      ((List.range nodes.length).foldl (fun (st : Nat × Nat) i =>
        if (nodes.getD i TreeNode.init).children.length > st.2 then
          (i, (nodes.getD i TreeNode.init).children.length)
        else st) (0, 0)).1

/-- `NewickFormatter::sanitize_name`: wrap in single quotes when the name
contains a Newick special character (the quote character is `Char.ofNat 39`).
No inner-quote escaping is performed. -/
def sanitizeName (name : String) : String :=
  let quote := String.mk [Char.ofNat 39]
  let needsQuotes := name.toList.any (fun c =>
    c = ' ' ∨ c = ':' ∨ c = ';' ∨ c = '(' ∨ c = ')' ∨ c = ',' ∨
    c = '[' ∨ c = ']' ∨ c = Char.ofNat 39)
  if needsQuotes then quote ++ name ++ quote else name

/-- `std::fixed << std::setprecision(6)` rendering of a branch length.  The
engine's branch lengths are exact multiples of `1/2`, so the six fractional
digits are exact and no rounding-mode subtlety arises. -/
def formatFixed6 (q : ℚ) : String :=
  let scaled : Int := round (q * 1000000)
  let sign := if scaled < 0 then "-" else ""
  let a := scaled.natAbs
  let ip := a / 1000000
  let fp := a % 1000000
  sign ++ toString ip ++ "." ++
    String.mk (List.replicate (6 - (toString fp).length) '0') ++ toString fp

/-- `NewickFormatter::to_newick`: leaves render as their sanitized name,
internal nodes as `(child:len,…)label`.  Fuelled by the tree height (the C++
recursion unbounded only on malformed cyclic inputs). -/
def toNewick (nodes : List TreeNode) (names : List String) :
    Nat → Nat → String
  | 0, _ => ""
  | fuel + 1, nodeId =>
      let node := nodes.getD nodeId TreeNode.init
      if node.children.isEmpty then sanitizeName (names.getD nodeId "")
      else
        "(" ++ String.intercalate "," (node.children.map (fun childId =>
          toNewick nodes names fuel childId ++ ":" ++
          formatFixed6 (nodes.getD childId TreeNode.init).branch_length)) ++
        ")" ++
        (if nodeId < names.length then sanitizeName (names.getD nodeId "")
         else "")

/-- `NewickFormatter::format`. -/
def newickFormat (edges : List Edge) (strainNames : List String) : String :=
  if edges.isEmpty then
    (if strainNames.isEmpty then "();" else strainNames.getD 0 "" ++ ";")
  else
    let nodes := buildTreeStructure edges strainNames.length
    let root := findRootNode nodes
    toNewick nodes strainNames (nodes.length + 1) root ++ ";"

/-! ### Request façade (wasm_interface.cpp) -/

/-- The JSON response envelope of `compute_tree`
(wasm_interface.cpp:100-115): the success object or
`{success:false, error}`. -/
inductive TreeResponse
  | ok (newick : String) (edges : List Edge) (n_nodes n_edges : Nat)
  | err (msg : String)
deriving Repr, DecidableEq

/-- `parse_profile_json` (wasm_interface.cpp:22-32) after JSON decoding:
no shape validation at all; `n_strains` is the number of names, `n_genes`
the length of the first profile row (0 when there are none). -/
def parseProfileJson (strains : List String)
    (profiles : List (List Int)) : ProfileData :=
  { strain_names := strains, profiles := profiles,
    n_strains := strains.length,
    n_genes := (profiles.headD []).length }

/-- `compute_tree` (wasm_interface.cpp:55-116) on decoded input, with
standard C++ exception semantics: the `Unknown method` throw and `MSTree`'s
`std::length_error` on zero nodes are caught and become the failure
envelope. -/
def computeTree (strains : List String) (profiles : List (List Int))
    (method matrixType : String) (missingHandler : Int)
    (heuristic : String) : TreeResponse :=
  let profileData := parseProfileJson strains profiles
  let distances :=
    if matrixType = "symmetric" then
      computeSymmetric profileData missingHandler
    else computeAsymmetric profileData
  if method = "MSTree" then
    match mstreeCompute distances
        (if heuristic = "harmonic" then .HARMONIC else .EBURST) with
    | .error msg => .err msg
    | .ok treeEdges =>
        .ok (newickFormat treeEdges profileData.strain_names) treeEdges
          profileData.n_strains treeEdges.length
  else if method = "MSTreeV2" then
    let treeEdges := mstreeV2Compute distances
    .ok (newickFormat treeEdges profileData.strain_names) treeEdges
      profileData.n_strains treeEdges.length
  else .err ("Unknown method: " ++ method)

/-! ### Claims C7 and C8 -/

/-- C7 (code bug): `compute_tree` performs no shape validation; with
`strains = []`, `profiles = []` (so `strains.len == 0`) and method
`MSTreeV2` it returns the success envelope
`{success:true, newick:"();", edges:[], n_nodes:0, n_edges:0}` — not the
claimed failure envelope. -/
theorem C7_compute_tree_accepts_empty_input :
    computeTree [] [] "MSTreeV2" "asymmetric" 0 "harmonic" =
      .ok "();" [] 0 0 := by
  with_unfolding_all decide

/-- C8: for every decoded profile input and every method string not in
`{"MSTree", "MSTreeV2"}`, `compute_tree` returns the failure envelope whose
error message is `"Unknown method: " ++ method` (so it begins with
`Unknown method`); the throw happens at the dispatch, before any tree
construction. -/
theorem C8_unknown_method_rejected (strains : List String)
    (profiles : List (List Int)) (matrixType : String)
    (missingHandler : Int) (heuristic method : String)
    (h1 : method ≠ "MSTree") (h2 : method ≠ "MSTreeV2") :
    computeTree strains profiles method matrixType missingHandler heuristic =
      .err ("Unknown method: " ++ method) ∧
    ∃ rest, "Unknown method: " ++ method = "Unknown method" ++ rest := by
  constructor
  · unfold computeTree
    dsimp only
    rw [if_neg h1, if_neg h2]
  · refine ⟨": " ++ method, ?_⟩
    rw [← String.append_assoc]
    congr 1

/-- Witness for C8 at the spec's own example: the advertised-but-missing
method `"NJ"`. -/
theorem C8_unknown_method_rejected_witness :
    computeTree ["A"] [[1]] "NJ" "symmetric" 0 "eBurst" =
      .err ("Unknown method: " ++ "NJ") ∧
    "Unknown method: " ++ "NJ" = "Unknown method: NJ" := by
  refine ⟨(C8_unknown_method_rejected ["A"] [[1]] "symmetric" 0 "eBurst" "NJ"
    (by decide) (by decide)).1, ?_⟩
  with_unfolding_all decide

/-! ### Claim C4: the minimum-incoming-edge phase -/

theorem tol_pos : (0 : ℚ) < tol := by norm_num [tol]

theorem foldl_min_le_init (x : ℚ) (xs : List ℚ) : xs.foldl min x ≤ x := by
  induction xs generalizing x with
  | nil => exact le_refl x
  | cons a xs ih => exact le_trans (ih (min x a)) (min_le_left x a)

theorem foldl_min_le_mem (x : ℚ) (xs : List ℚ) :
    ∀ y ∈ xs, xs.foldl min x ≤ y := by
  induction xs generalizing x with
  | nil => intro y h; cases h
  | cons a xs ih =>
      intro y hy
      rcases List.mem_cons.mp hy with rfl | hy
      · exact le_trans (foldl_min_le_init (min x y) xs) (min_le_right x y)
      · exact ih (min x a) y hy

theorem foldl_min_mem (x : ℚ) (xs : List ℚ) : xs.foldl min x ∈ x :: xs := by
  induction xs generalizing x with
  | nil => exact List.mem_cons_self ..
  | cons a xs ih =>
      rw [List.foldl_cons]
      rcases List.mem_cons.mp (ih (min x a)) with h | h
      · rcases min_choice x a with hc | hc
        · exact List.mem_cons.mpr (Or.inl (h.trans hc))
        · exact List.mem_cons.mpr (Or.inr (List.mem_cons.mpr
            (Or.inl (h.trans hc))))
      · exact List.mem_cons.mpr (Or.inr (List.mem_cons.mpr (Or.inr h)))

/-- The claim's `min_dist`: the minimum of `D[from][to]` over `from ≠ to`
(over an empty candidate set — impossible for `n ≥ 2` — it is `0`). -/
def specColumnMin (D : List (List ℚ)) (n tgt : Nat) : ℚ :=
  match ((List.range n).filter (fun f => f ≠ tgt)).map
      (fun f => getEntry D f tgt) with
  | [] => 0
  | x :: xs => xs.foldl min x

/-- The incremental score argmax: scan `fs` keeping the candidate with the
strictly larger harmonic-mean score (earlier candidate wins ties). -/
def specPick (D : List (List ℚ)) (n : Nat) (f0 : Nat) (fs : List Nat) : Nat :=
  fs.foldl (fun b f =>
    if harmonicMeanScore D n f > harmonicMeanScore D n b then f else b) f0

/-- The claim's `best_from` (under exact ties): among the candidates whose
entry equals the column minimum, the one with the largest harmonic-mean
score, the smallest index winning ties. -/
def specBestFrom (D : List (List ℚ)) (n tgt : Nat) : Nat :=
  match (List.range n).filter (fun f =>
      f ≠ tgt ∧ getEntry D f tgt = specColumnMin D n tgt) with
  | [] => 0
  | f0 :: fs => specPick D n f0 fs

theorem specPick_cons (D : List (List ℚ)) (n b f : Nat) (rest : List Nat) :
    specPick D n b (f :: rest) =
      specPick D n
        (if harmonicMeanScore D n f > harmonicMeanScore D n b then f else b)
        rest := rfl

theorem specColumnMin_le (D : List (List ℚ)) (n tgt : Nat) {f : Nat}
    (hf : f < n) (hne : f ≠ tgt) :
    specColumnMin D n tgt ≤ getEntry D f tgt := by
  unfold specColumnMin
  have hmem : getEntry D f tgt ∈ ((List.range n).filter
      (fun f => f ≠ tgt)).map (fun f => getEntry D f tgt) :=
    List.mem_map.mpr ⟨f, List.mem_filter.mpr
      ⟨List.mem_range.mpr hf, decide_eq_true hne⟩, rfl⟩
  split
  · rename_i heq
    rw [heq] at hmem
    cases hmem
  · rename_i x xs heq
    rw [heq] at hmem
    rcases List.mem_cons.mp hmem with h | h
    · exact h ▸ foldl_min_le_init x xs
    · exact foldl_min_le_mem x xs _ h

theorem specColumnMin_attained (D : List (List ℚ)) {n tgt : Nat}
    (h2 : tgt < n) (hn : 2 ≤ n) :
    ∃ f, f < n ∧ f ≠ tgt ∧ getEntry D f tgt = specColumnMin D n tgt := by
  unfold specColumnMin
  have hne : ∃ g, g < n ∧ g ≠ tgt := by
    by_cases h0 : tgt = 0
    · exact ⟨1, by omega, by omega⟩
    · exact ⟨0, by omega, fun h => h0 h.symm⟩
  obtain ⟨g, hg, hgt⟩ := hne
  have hmem : getEntry D g tgt ∈ ((List.range n).filter
      (fun f => f ≠ tgt)).map (fun f => getEntry D f tgt) :=
    List.mem_map.mpr ⟨g, List.mem_filter.mpr
      ⟨List.mem_range.mpr hg, decide_eq_true hgt⟩, rfl⟩
  split
  · rename_i heq
    rw [heq] at hmem
    cases hmem
  · rename_i x xs heq
    have hmin : xs.foldl min x ∈ x :: xs := foldl_min_mem x xs
    rw [← heq] at hmin
    rcases List.mem_map.mp hmin with ⟨f, hf, hfe⟩
    have hfr := List.mem_filter.mp hf
    exact ⟨f, List.mem_range.mp hfr.1, of_decide_eq_true hfr.2, hfe⟩

theorem minIncoming_scanB (D : List (List ℚ)) (n tgt : Nat) (m : ℚ) :
    ∀ (L : List Nat),
      (∀ f ∈ L, f ≠ tgt → m ≤ getEntry D f tgt) →
      (∀ f ∈ L, f ≠ tgt → |getEntry D f tgt - m| < tol →
        getEntry D f tgt = m) →
      ∀ (b : Nat),
        L.foldl (minIncomingStep D n tgt)
            (m, (b : Int), harmonicMeanScore D n b) =
          (m, ((specPick D n b (L.filter (fun f =>
              f ≠ tgt ∧ getEntry D f tgt = m)) : Nat) : Int),
            harmonicMeanScore D n (specPick D n b (L.filter (fun f =>
              f ≠ tgt ∧ getEntry D f tgt = m)))) := by
  intro L
  induction L with
  | nil => intro _ _ b; rfl
  | cons f L ih =>
      intro hle hexact b
      rw [List.foldl_cons, List.filter_cons]
      by_cases hf : f ≠ tgt ∧ getEntry D f tgt = m
      · rw [if_pos (decide_eq_true hf)]
        have hstep : minIncomingStep D n tgt
            (m, (b : Int), harmonicMeanScore D n b) f =
            (m, ((if harmonicMeanScore D n f > harmonicMeanScore D n b
                then f else b : Nat) : Int),
             harmonicMeanScore D n
               (if harmonicMeanScore D n f > harmonicMeanScore D n b
                then f else b)) := by
          have habs : |m - m| < tol := by
            rw [sub_self, abs_zero]
            exact tol_pos
          unfold minIncomingStep
          dsimp only
          rw [if_neg hf.1, hf.2, if_neg (lt_irrefl m), if_pos habs]
          split_ifs <;> rfl
        rw [hstep, specPick_cons]
        exact ih (fun q hq hqt => hle q (List.mem_cons_of_mem _ hq) hqt)
          (fun q hq hqt hqe => hexact q (List.mem_cons_of_mem _ hq) hqt hqe) _
      · rw [if_neg (by simpa using hf)]
        have hstep : minIncomingStep D n tgt
            (m, (b : Int), harmonicMeanScore D n b) f =
            (m, (b : Int), harmonicMeanScore D n b) := by
          unfold minIncomingStep
          dsimp only
          by_cases hft : f = tgt
          · rw [if_pos hft]
          · rw [if_neg hft]
            have hdm : getEntry D f tgt ≠ m := fun he => hf ⟨hft, he⟩
            have hge : m ≤ getEntry D f tgt :=
              hle f (List.mem_cons_self ..) hft
            rw [if_neg (not_lt.mpr hge), if_neg (fun h =>
              hdm (hexact f (List.mem_cons_self ..) hft h))]
        rw [hstep]
        exact ih (fun q hq hqt => hle q (List.mem_cons_of_mem _ hq) hqt)
          (fun q hq hqt hqe => hexact q (List.mem_cons_of_mem _ hq) hqt hqe) b

theorem minIncoming_scanA (D : List (List ℚ)) (n tgt : Nat) (m : ℚ) :
    ∀ (L : List Nat),
      (∀ f ∈ L, f ≠ tgt → m ≤ getEntry D f tgt) →
      (∀ f ∈ L, f ≠ tgt → |getEntry D f tgt - m| < tol →
        getEntry D f tgt = m) →
      ∀ (st : ℚ × Int × ℚ), m < st.1 →
        (L.filter (fun f => f ≠ tgt ∧ getEntry D f tgt = m) = [] →
          m < (L.foldl (minIncomingStep D n tgt) st).1) ∧
        (∀ f0 fs,
          L.filter (fun f => f ≠ tgt ∧ getEntry D f tgt = m) = f0 :: fs →
          L.foldl (minIncomingStep D n tgt) st =
            (m, ((specPick D n f0 fs : Nat) : Int),
             harmonicMeanScore D n (specPick D n f0 fs))) := by
  intro L
  induction L with
  | nil =>
      intro _ _ st hst
      exact ⟨fun _ => hst, fun f0 fs h => by cases h⟩
  | cons f L ih =>
      intro hle hexact st hst
      rw [List.foldl_cons, List.filter_cons]
      by_cases hf : f ≠ tgt ∧ getEntry D f tgt = m
      · rw [if_pos (decide_eq_true hf)]
        have hstep : minIncomingStep D n tgt st f =
            (m, ((f : Nat) : Int), harmonicMeanScore D n f) := by
          unfold minIncomingStep
          dsimp only
          rw [if_neg hf.1, hf.2, if_pos hst]
        constructor
        · intro h
          cases h
        · intro f0 fs h
          injection h with h1 h2
          subst h1
          subst h2
          rw [hstep]
          exact minIncoming_scanB D n tgt m L
            (fun q hq hqt => hle q (List.mem_cons_of_mem _ hq) hqt)
            (fun q hq hqt hqe =>
              hexact q (List.mem_cons_of_mem _ hq) hqt hqe) f
      · rw [if_neg (by simpa using hf)]
        have hst' : m < (minIncomingStep D n tgt st f).1 := by
          unfold minIncomingStep
          dsimp only
          by_cases hft : f = tgt
          · rw [if_pos hft]
            exact hst
          · rw [if_neg hft]
            have hdm : getEntry D f tgt ≠ m := fun he => hf ⟨hft, he⟩
            have hge : m ≤ getEntry D f tgt :=
              hle f (List.mem_cons_self ..) hft
            have hgt : m < getEntry D f tgt :=
              lt_of_le_of_ne hge (fun h => hdm h.symm)
            split_ifs <;> first | exact hgt | exact hst
        exact ih (fun q hq hqt => hle q (List.mem_cons_of_mem _ hq) hqt)
          (fun q hq hqt hqe => hexact q (List.mem_cons_of_mem _ hq) hqt hqe)
          (minIncomingStep D n tgt st f) hst'

/-- C4 amended: for every matrix whose entries in column `to` are finite and
in which every entry within `1e-10` of the column minimum equals it exactly
(true of every matrix the engine derives from profiles, whose entries are
half-integers), phase C1 records for `to` the edge
`(best_from, to, min_dist)` where `min_dist` is the exact minimum of
`D[from][to]` over `from ≠ to` and `best_from` is, among the minimizers, the
one with the largest harmonic-mean score (smallest index on equal scores). -/
theorem C4_minimum_incoming_amended (D : List (List ℚ)) (n tgt : Nat)
    (h1 : 1 ≤ tgt) (h2 : tgt < n)
    (hfin : ∀ f, f < n → f ≠ tgt → getEntry D f tgt < dblMax)
    (hexact : ∀ f, f < n → f ≠ tgt →
      |getEntry D f tgt - specColumnMin D n tgt| < tol →
      getEntry D f tgt = specColumnMin D n tgt) :
    minIncomingState D n tgt =
      (specColumnMin D n tgt, ((specBestFrom D n tgt : Nat) : Int),
       harmonicMeanScore D n (specBestFrom D n tgt)) ∧
    Edge.mk (specBestFrom D n tgt) tgt (specColumnMin D n tgt) ∈
      findMinimumIncomingEdges D n := by
  have hn : 2 ≤ n := by omega
  have hle : ∀ f ∈ List.range n, f ≠ tgt →
      specColumnMin D n tgt ≤ getEntry D f tgt :=
    fun f hf hft => specColumnMin_le D n tgt (List.mem_range.mp hf) hft
  have hex : ∀ f ∈ List.range n, f ≠ tgt →
      |getEntry D f tgt - specColumnMin D n tgt| < tol →
      getEntry D f tgt = specColumnMin D n tgt :=
    fun f hf => hexact f (List.mem_range.mp hf)
  obtain ⟨g, hg, hgt, hge⟩ := specColumnMin_attained D h2 hn
  have hmlt : specColumnMin D n tgt < dblMax := hge ▸ hfin g hg hgt
  have hfilter : (List.range n).filter (fun f =>
      f ≠ tgt ∧ getEntry D f tgt = specColumnMin D n tgt) ≠ [] := by
    intro hempty
    have : g ∈ (List.range n).filter (fun f =>
        f ≠ tgt ∧ getEntry D f tgt = specColumnMin D n tgt) :=
      List.mem_filter.mpr ⟨List.mem_range.mpr hg, decide_eq_true ⟨hgt, hge⟩⟩
    rw [hempty] at this
    cases this
  have hstate : minIncomingState D n tgt =
      (specColumnMin D n tgt, ((specBestFrom D n tgt : Nat) : Int),
       harmonicMeanScore D n (specBestFrom D n tgt)) := by
    unfold minIncomingState specBestFrom
    cases hsplit : (List.range n).filter (fun f =>
        f ≠ tgt ∧ getEntry D f tgt = specColumnMin D n tgt) with
    | nil => exact absurd hsplit hfilter
    | cons f0 fs =>
        have := ((minIncoming_scanA D n tgt (specColumnMin D n tgt)
          (List.range n) hle hex (dblMax, -1, -1) hmlt).2) f0 fs hsplit
        rw [this]
  refine ⟨hstate, ?_⟩
  unfold findMinimumIncomingEdges
  refine List.mem_flatMap.mpr ⟨tgt, ?_, ?_⟩
  · obtain ⟨k, rfl⟩ : ∃ k, n = k + 1 := ⟨n - 1, by omega⟩
    rw [List.range_succ_eq_map, List.drop_one, List.tail_cons]
    exact List.mem_map.mpr ⟨tgt - 1, List.mem_range.mpr (by omega), by omega⟩
  · dsimp only
    rw [hstate]
    rw [if_pos (show ((specBestFrom D n tgt : Nat) : Int) ≠ -1 by omega)]
    rw [show (((specBestFrom D n tgt : Nat) : Int)).toNat =
      specBestFrom D n tgt from Int.toNat_natCast _]
    exact List.mem_cons_self ..

/-- The counterexample matrix for C4 (the claim quantifies over every
asymmetric matrix).  Column 2's minimum is `D[1][2] = 1`; the entry
`D[0][2] = 1 + 1e-11` lies within the `1e-10` tolerance of it and vertex 0
has the strictly larger harmonic-mean score. -/
def counterexampleMatrixC4 : List (List ℚ) :=
  [[0, 1, 1 + 1 / 10 ^ 11], [1 / 100, 0, 1], [7, 7, 0]]

set_option maxRecDepth 8000 in
/-- C4 counterexample: for `to = 2` the code records the edge `(1, 2, 1)` —
a strict improvement during the scan always replaces the incumbent,
regardless of score — although `from = 0` lies within `1e-10` of the minimum
and has the strictly larger harmonic-mean score.  So `best_from` is not the
largest-score member of the tolerance tie set, contradicting the claim. -/
theorem C4_minimum_incoming_counterexample :
    (findMinimumIncomingEdges counterexampleMatrixC4 3).getD 1 default =
      ⟨1, 2, 1⟩ ∧
    |getEntry counterexampleMatrixC4 0 2 - 1| < tol ∧
    harmonicMeanScore counterexampleMatrixC4 3 0 >
      harmonicMeanScore counterexampleMatrixC4 3 1 := by
  refine ⟨?_, ?_, ?_⟩ <;> with_unfolding_all decide

/-- The witness matrix for the amended C4: all tolerance ties are exact. -/
def witnessMatrixC4 : List (List ℚ) := [[0, 1, 1], [1, 0, 1], [2, 1, 0]]

set_option maxRecDepth 8000 in
/-- Witness for the amended C4 at `to = 2` of `witnessMatrixC4`: vertices 0
and 1 tie exactly at distance 1 with equal harmonic scores, the smaller
index wins, and the edge `(0, 2, 1)` is recorded. -/
theorem C4_minimum_incoming_amended_witness :
    Edge.mk 0 2 1 ∈ findMinimumIncomingEdges witnessMatrixC4 3 := by
  have h := (C4_minimum_incoming_amended witnessMatrixC4 3 2 (by decide)
    (by decide) (by with_unfolding_all decide)
    (by with_unfolding_all decide)).2
  have h1 : specBestFrom witnessMatrixC4 3 2 = 0 := by
    with_unfolding_all decide
  have h2 : specColumnMin witnessMatrixC4 3 2 = 1 := by
    with_unfolding_all decide
  rw [h1, h2] at h
  exact h

/-! ### Claim C5: MSTree output is a spanning tree -/

/-- An edge list touches `u` and `v` when some edge joins them (in either
direction — MSTree edges are semantically undirected). -/
def edgeTouches (edges : List Edge) (u v : Nat) : Prop :=
  ∃ e ∈ edges, (e.fr = u ∧ e.eto = v) ∨ (e.fr = v ∧ e.eto = u)

/-- Undirected reachability through an edge list. -/
def edgeReachable (edges : List Edge) : Nat → Nat → Prop :=
  Relation.ReflTransGen (edgeTouches edges)

theorem edgeReachable_mono {edges edges' : List Edge}
    (hsub : ∀ e ∈ edges, e ∈ edges') {u v : Nat}
    (h : edgeReachable edges u v) : edgeReachable edges' u v :=
  Relation.ReflTransGen.mono
    (fun _ _ ⟨e, he, hor⟩ => ⟨e, hsub e he, hor⟩) h

/-- Claim C5's "exactly N−1 edges forming a connected acyclic spanning graph
in which every vertex appears in at least one edge", stated concretely:
`n - 1` edges with in-range distinct endpoints; vertex 0 is never a `to`
endpoint while every other vertex is the `to` of exactly one edge; each
edge's `from` is vertex 0 or the `to` of an earlier edge (the construction
order orients the tree away from vertex 0, which together with unique
in-degrees rules out cycles); every vertex is reachable from vertex 0; and
every vertex appears in at least one edge. -/
def specSpanningTree (n : Nat) (edges : List Edge) : Prop :=
  edges.length = n - 1 ∧
  (∀ e ∈ edges, e.fr < n ∧ e.eto < n ∧ e.fr ≠ e.eto) ∧
  edges.countP (fun e => e.eto = 0) = 0 ∧
  (∀ v, 1 ≤ v → v < n → edges.countP (fun e => e.eto = v) = 1) ∧
  (∀ k, k < edges.length → (edges.getD k default).fr = 0 ∨
    ∃ j, j < k ∧ (edges.getD j default).eto = (edges.getD k default).fr) ∧
  (∀ v, v < n → edgeReachable edges 0 v) ∧
  (∀ v, v < n → ∃ e ∈ edges, e.fr = v ∨ e.eto = v)

/-! #### Generic lemmas about the linear min scan and the tie-break folds -/

theorem scanMin_le_init {q : Nat → Prop} [DecidablePred q] (g : Nat → ℚ) :
    ∀ (l : List Nat) (a : ℚ),
      l.foldl (fun acc i => if q i ∧ g i < acc then g i else acc) a ≤ a := by
  intro l
  induction l with
  | nil => intro a; exact le_refl a
  | cons i l ih =>
      intro a
      rw [List.foldl_cons]
      by_cases h : q i ∧ g i < a
      · rw [if_pos h]
        exact le_trans (ih (g i)) (le_of_lt h.2)
      · rw [if_neg h]
        exact ih a

theorem scanMin_le {q : Nat → Prop} [DecidablePred q] (g : Nat → ℚ) :
    ∀ (l : List Nat) (a : ℚ) (i : Nat), i ∈ l → q i →
      l.foldl (fun acc j => if q j ∧ g j < acc then g j else acc) a ≤ g i := by
  intro l
  induction l with
  | nil => intro a i h; cases h
  | cons j l ih =>
      intro a i hi hq
      rw [List.foldl_cons]
      rcases List.mem_cons.mp hi with rfl | hi
      · by_cases h : q i ∧ g i < a
        · rw [if_pos h]
          exact scanMin_le_init g l (g i)
        · rw [if_neg h]
          have : a ≤ g i := le_of_not_lt (fun hlt => h ⟨hq, hlt⟩)
          exact le_trans (scanMin_le_init g l a) this
      · split <;> exact ih _ i hi hq

theorem scanMin_cases {q : Nat → Prop} [DecidablePred q] (g : Nat → ℚ) :
    ∀ (l : List Nat) (a : ℚ),
      l.foldl (fun acc j => if q j ∧ g j < acc then g j else acc) a = a ∨
      ∃ i ∈ l, q i ∧
        l.foldl (fun acc j => if q j ∧ g j < acc then g j else acc) a = g i := by
  intro l
  induction l with
  | nil => intro a; exact Or.inl rfl
  | cons j l ih =>
      intro a
      rw [List.foldl_cons]
      by_cases h : q j ∧ g j < a
      · rw [if_pos h]
        rcases ih (g j) with he | ⟨i, hi, hqi, he⟩
        · exact Or.inr ⟨j, List.mem_cons_self .., h.1, he⟩
        · exact Or.inr ⟨i, List.mem_cons_of_mem _ hi, hqi, he⟩
      · rw [if_neg h]
        rcases ih a with he | ⟨i, hi, hqi, he⟩
        · exact Or.inl he
        · exact Or.inr ⟨i, List.mem_cons_of_mem _ hi, hqi, he⟩

theorem foldl_pick_mem {β : Type} (step : Nat × β → Nat → Nat × β)
    (hstep : ∀ st c, (step st c).1 = st.1 ∨ (step st c).1 = c) :
    ∀ (l : List Nat) (st : Nat × β),
      (l.foldl step st).1 = st.1 ∨ (l.foldl step st).1 ∈ l := by
  intro l
  induction l with
  | nil => intro st; exact Or.inl rfl
  | cons c l ih =>
      intro st
      rw [List.foldl_cons]
      rcases ih (step st c) with h | h
      · rcases hstep st c with h' | h'
        · exact Or.inl (h.trans h')
        · exact Or.inr (List.mem_cons.mpr (Or.inl (h.trans h')))
      · exact Or.inr (List.mem_cons_of_mem _ h)

theorem applyEburstTiebreak_mem (D : List (List ℚ)) (n : Nat)
    (candidates : List Nat) (inTree : List Bool) (minDist : ℚ)
    (hne : candidates ≠ []) :
    applyEburstTiebreak D n candidates inTree minDist ∈ candidates := by
  unfold applyEburstTiebreak
  have := foldl_pick_mem (β := Nat) (eburstStep D n inTree minDist)
    (fun st c => by
      unfold eburstStep
      dsimp only
      split_ifs <;> first | exact Or.inl rfl | exact Or.inr rfl)
    candidates (candidates.getD 0 0, 0)
  rcases this with h | h
  · rw [h]
    cases candidates with
    | nil => exact absurd rfl hne
    | cons c cs => exact List.mem_cons_self ..
  · exact h

theorem applyHarmonicTiebreak_mem (D : List (List ℚ)) (n : Nat)
    (candidates : List Nat) (hne : candidates ≠ []) :
    applyHarmonicTiebreak D n candidates ∈ candidates := by
  unfold applyHarmonicTiebreak
  have := foldl_pick_mem (β := ℚ) (harmonicTiebreakStep D n)
    (fun st c => by
      unfold harmonicTiebreakStep
      dsimp only
      split_ifs <;> first | exact Or.inl rfl | exact Or.inr rfl)
    candidates (candidates.getD 0 0, -1)
  rcases this with h | h
  · rw [h]
    cases candidates with
    | nil => exact absurd rfl hne
    | cons c cs => exact List.mem_cons_self ..
  · exact h

theorem selectNodeWithTiebreak_mem (D : List (List ℚ)) (n : Nat)
    (heuristic : Heuristic) (distances : List ℚ) (inTree : List Bool)
    (minDist : ℚ)
    (hne : primCandidates distances inTree n minDist ≠ []) :
    selectNodeWithTiebreak D n heuristic distances inTree minDist ∈
      primCandidates distances inTree n minDist := by
  unfold selectNodeWithTiebreak
  dsimp only
  split_ifs with hlen hh
  · cases hc : primCandidates distances inTree n minDist with
    | nil => exact absurd hc hne
    | cons c cs => exact List.mem_cons_self ..
  · exact applyEburstTiebreak_mem D n _ inTree minDist hne
  · exact applyHarmonicTiebreak_mem D n _ hne

/-! #### Bool-count and update-fold bookkeeping -/

theorem countP_true_lt_exists_false {l : List Bool}
    (h : l.countP (fun b => b) < l.length) :
    ∃ i, i < l.length ∧ l.getD i false = false := by
  by_contra hc
  push_neg at hc
  have hall : ∀ b ∈ l, (fun b => b) b = true := by
    intro b hb
    rcases List.getElem_of_mem hb with ⟨i, hi, rfl⟩
    have hgd := hc i hi
    rw [List.getD_eq_getElem?_getD, List.getElem?_eq_getElem hi] at hgd
    simpa using hgd
  rw [List.countP_eq_length.mpr hall] at h
  exact lt_irrefl _ h

theorem all_true_of_countP_eq_length {l : List Bool}
    (h : l.countP (fun b => b) = l.length) :
    ∀ i, i < l.length → l.getD i false = true := by
  intro i hi
  have := List.countP_eq_length.mp h (l.get ⟨i, hi⟩) (List.get_mem l i hi)
  rw [List.getD_eq_getElem?_getD, List.getElem?_eq_getElem hi]
  simpa using this

theorem getD_set_true_mono {l : List Bool} {i v : Nat}
    (h : l.getD v false = true) : (l.set i true).getD v false = true := by
  by_cases hv : i = v
  · subst hv
    by_cases hlen : i < l.length
    · rw [getD_set_self _ _ _ _ hlen]
    · rw [getD_set_oob _ _ _ _ hlen]
      exact h
  · rw [getD_set_ne _ _ _ hv]
    exact h

theorem relaxStep_getD (D : List (List ℚ)) (inTree : List Bool)
    (minNode : Nat) (u : List ℚ × List Int) (j : Nat)
    (hlen : u.1.length = u.2.length) (i : Nat) :
    ((relaxStep D inTree minNode u j).1.getD i 0 = u.1.getD i 0 ∧
     (relaxStep D inTree minNode u j).2.getD i (-1) = u.2.getD i (-1)) ∨
    ((relaxStep D inTree minNode u j).1.getD i 0 = getEntry D minNode i ∧
     (relaxStep D inTree minNode u j).2.getD i (-1) = (minNode : Int)) := by
  unfold relaxStep
  split
  · by_cases hij : j = i
    · subst hij
      by_cases hb : j < u.1.length
      · exact Or.inr ⟨getD_set_self _ _ _ _ hb,
          getD_set_self _ _ _ _ (hlen ▸ hb)⟩
      · refine Or.inl ⟨getD_set_oob _ _ _ _ hb, getD_set_oob _ _ _ _ ?_⟩
        rw [← hlen]
        exact hb
    · exact Or.inl ⟨getD_set_ne _ _ _ hij, getD_set_ne _ _ _ hij⟩
  · exact Or.inl ⟨rfl, rfl⟩

theorem relaxStep_length (D : List (List ℚ)) (inTree : List Bool)
    (minNode : Nat) (u : List ℚ × List Int) (j : Nat) :
    (relaxStep D inTree minNode u j).1.length = u.1.length ∧
    (relaxStep D inTree minNode u j).2.length = u.2.length := by
  unfold relaxStep
  split
  · exact ⟨List.length_set .., List.length_set ..⟩
  · exact ⟨rfl, rfl⟩

theorem relax_fold_spec (D : List (List ℚ)) (inTree : List Bool)
    (minNode : Nat) :
    ∀ (l : List Nat) (u : List ℚ × List Int), u.1.length = u.2.length →
      (l.foldl (relaxStep D inTree minNode) u).1.length = u.1.length ∧
      (l.foldl (relaxStep D inTree minNode) u).2.length = u.2.length ∧
      ∀ i : Nat,
        ((l.foldl (relaxStep D inTree minNode) u).1.getD i 0 =
           u.1.getD i 0 ∧
         (l.foldl (relaxStep D inTree minNode) u).2.getD i (-1) =
           u.2.getD i (-1)) ∨
        ((l.foldl (relaxStep D inTree minNode) u).1.getD i 0 =
           getEntry D minNode i ∧
         (l.foldl (relaxStep D inTree minNode) u).2.getD i (-1) =
           (minNode : Int)) := by
  intro l
  induction l with
  | nil => exact fun u _ => ⟨rfl, rfl, fun i => Or.inl ⟨rfl, rfl⟩⟩
  | cons j l ih =>
      intro u hlen
      rw [List.foldl_cons]
      have hstep := relaxStep_length D inTree minNode u j
      obtain ⟨h1, h2, h3⟩ := ih (relaxStep D inTree minNode u j)
        (hstep.1.trans (hlen.trans hstep.2.symm))
      refine ⟨h1.trans hstep.1, h2.trans hstep.2, fun i => ?_⟩
      rcases h3 i with ⟨ha, hb⟩ | hnew
      · rcases relaxStep_getD D inTree minNode u j hlen i with ⟨hc, hd⟩ | hnew'
        · exact Or.inl ⟨ha.trans hc, hb.trans hd⟩
        · exact Or.inr ⟨ha.trans hnew'.1, hb.trans hnew'.2⟩
      · exact Or.inr hnew

theorem primInit_fold_length (D : List (List ℚ)) :
    ∀ (l : List Nat) (u : List ℚ × List Int),
      (l.foldl (primInitStep D) u).1.length = u.1.length ∧
      (l.foldl (primInitStep D) u).2.length = u.2.length := by
  intro l
  induction l with
  | nil => exact fun u => ⟨rfl, rfl⟩
  | cons j l ih =>
      intro u
      rw [List.foldl_cons]
      have hstep : (primInitStep D u j).1.length = u.1.length ∧
          (primInitStep D u j).2.length = u.2.length := by
        unfold primInitStep
        split
        · exact ⟨List.length_set .., List.length_set ..⟩
        · exact ⟨rfl, rfl⟩
      obtain ⟨h1, h2⟩ := ih (primInitStep D u j)
      exact ⟨h1.trans hstep.1, h2.trans hstep.2⟩

theorem primInit_fold_getD_notmem (D : List (List ℚ)) :
    ∀ (l : List Nat) (u : List ℚ × List Int) (i : Nat), i ∉ l →
      (l.foldl (primInitStep D) u).1.getD i 0 = u.1.getD i 0 ∧
      (l.foldl (primInitStep D) u).2.getD i (-1) = u.2.getD i (-1) := by
  intro l
  induction l with
  | nil => exact fun u i _ => ⟨rfl, rfl⟩
  | cons j l ih =>
      intro u i hi
      rw [List.foldl_cons]
      have hij : j ≠ i := fun h => hi (h ▸ List.mem_cons_self ..)
      have hrest := ih (primInitStep D u j) i
        (fun h => hi (List.mem_cons_of_mem _ h))
      have hstep : (primInitStep D u j).1.getD i 0 = u.1.getD i 0 ∧
          (primInitStep D u j).2.getD i (-1) = u.2.getD i (-1) := by
        unfold primInitStep
        split
        · exact ⟨getD_set_ne _ _ _ hij, getD_set_ne _ _ _ hij⟩
        · exact ⟨rfl, rfl⟩
      exact ⟨hrest.1.trans hstep.1, hrest.2.trans hstep.2⟩

theorem primInit_fold_getD (D : List (List ℚ)) :
    ∀ (l : List Nat), l.Nodup →
      ∀ (u : List ℚ × List Int) (i : Nat), i ∈ l → i ≠ 0 →
        i < u.1.length → i < u.2.length →
        (l.foldl (primInitStep D) u).1.getD i 0 = getEntry D 0 i ∧
        (l.foldl (primInitStep D) u).2.getD i (-1) = 0 := by
  intro l
  induction l with
  | nil => intro _ u i hi; cases hi
  | cons j l ih =>
      intro hnd u i hi hi0 hb1 hb2
      rw [List.foldl_cons]
      rcases List.mem_cons.mp hi with rfl | hmem
      · have hrest := primInit_fold_getD_notmem D l
          (primInitStep D u i) i (List.nodup_cons.mp hnd).1
        have hstep : (primInitStep D u i).1.getD i 0 = getEntry D 0 i ∧
            (primInitStep D u i).2.getD i (-1) = 0 := by
          unfold primInitStep
          rw [if_pos hi0]
          exact ⟨getD_set_self _ _ _ _ hb1, getD_set_self _ _ _ _ hb2⟩
        exact ⟨hrest.1.trans hstep.1, hrest.2.trans hstep.2⟩
      · have hstep : (primInitStep D u j).1.length = u.1.length ∧
            (primInitStep D u j).2.length = u.2.length := by
          unfold primInitStep
          split
          · exact ⟨List.length_set .., List.length_set ..⟩
          · exact ⟨rfl, rfl⟩
        exact ih (List.nodup_cons.mp hnd).2 (primInitStep D u j) i hmem hi0
          (hstep.1 ▸ hb1) (hstep.2 ▸ hb2)

/-! #### The Prim loop invariant -/

/-- Invariant of `MSTree::compute`'s main loop: lengths are stable, vertex 0
is in the tree, edges join in-tree vertices and record each vertex's entry
into the tree (unique in-degree, parent added earlier), every in-tree vertex
is reachable from 0, and every out-of-tree vertex has a finite best distance
and an in-tree parent. -/
structure PrimInv (n : Nat) (st : PrimState) : Prop where
  len_inTree : st.in_tree.length = n
  len_minD : st.min_distance.length = n
  len_parent : st.parent.length = n
  root_inTree : st.in_tree.getD 0 false = true
  edges_ok : ∀ e ∈ st.tree_edges, e.fr < n ∧ e.eto < n ∧ e.fr ≠ e.eto ∧
    st.in_tree.getD e.fr false = true ∧ st.in_tree.getD e.eto false = true
  inTree_iff : ∀ v, v < n → (st.in_tree.getD v false = true ↔
    (v = 0 ∨ ∃ e ∈ st.tree_edges, e.eto = v))
  indeg_root : st.tree_edges.countP (fun e => e.eto = 0) = 0
  indeg_le : ∀ v : Nat, st.tree_edges.countP (fun e => e.eto = v) ≤ 1
  ordered : ∀ k, k < st.tree_edges.length →
    (st.tree_edges.getD k default).fr = 0 ∨
    ∃ j, j < k ∧ (st.tree_edges.getD j default).eto =
      (st.tree_edges.getD k default).fr
  reach : ∀ v, v < n → st.in_tree.getD v false = true →
    edgeReachable st.tree_edges 0 v
  frontier : ∀ i, i < n → st.in_tree.getD i false = false →
    st.min_distance.getD i 0 < dblMax ∧
    ∃ p : Nat, st.parent.getD i (-1) = (p : Int) ∧ p < n ∧
      st.in_tree.getD p false = true

theorem primInit_inv (D : List (List ℚ)) (n : Nat) (hn : 2 ≤ n)
    (hfin : ∀ i j, i < n → j < n → getEntry D i j < dblMax) :
    PrimInv n (primInit D n) ∧
    (primInit D n).in_tree.countP (fun b => b) = 1 ∧
    (primInit D n).tree_edges.length = 0 := by
  have h0n : 0 < n := by omega
  have h0len : 0 < (List.replicate n false).length := by
    simpa using h0n
  have hroot : ((List.replicate n false).set 0 true).getD 0 false = true :=
    getD_set_self _ _ _ _ h0len
  have hoff : ∀ v, v ≠ 0 →
      ((List.replicate n false).set 0 true).getD v false = false := by
    intro v hv0
    rw [getD_set_ne _ _ _ (fun h => hv0 h.symm), getD_replicate]
    split <;> rfl
  have hfl := primInit_fold_length D (List.range n)
    ((List.replicate n dblMax).set 0 0, List.replicate n (-1 : Int))
  have hmdlen : ((List.replicate n dblMax).set 0 0).length = n := by
    simp
  have hprlen : (List.replicate n (-1 : Int)).length = n := by
    simp
  have hval : ∀ i, i < n → i ≠ 0 →
      ((List.range n).foldl (primInitStep D)
        ((List.replicate n dblMax).set 0 0,
         List.replicate n (-1 : Int))).1.getD i 0 = getEntry D 0 i ∧
      ((List.range n).foldl (primInitStep D)
        ((List.replicate n dblMax).set 0 0,
         List.replicate n (-1 : Int))).2.getD i (-1) = 0 := by
    intro i hi hi0
    exact primInit_fold_getD D (List.range n) (List.nodup_range n) _ i
      (List.mem_range.mpr hi) hi0 (by rw [hmdlen]; exact hi)
      (by rw [hprlen]; exact hi)
  unfold primInit
  dsimp only
  refine ⟨⟨?_, ?_, ?_, hroot, ?_, ?_, rfl, ?_, ?_, ?_, ?_⟩, ?_, rfl⟩
  · simp
  · exact hfl.1.trans hmdlen
  · exact hfl.2.trans hprlen
  · intro e he
    cases he
  · intro v hv
    by_cases hv0 : v = 0
    · subst hv0
      rw [hroot]
      simp
    · rw [hoff v hv0]
      constructor
      · intro h
        cases h
      · rintro (rfl | ⟨e, he, _⟩)
        · exact absurd rfl hv0
        · cases he
  · intro v
    exact Nat.zero_le 1
  · intro k hk
    cases hk
  · intro v hv hvt
    by_cases hv0 : v = 0
    · subst hv0
      exact Relation.ReflTransGen.refl
    · rw [hoff v hv0] at hvt
      cases hvt
  · intro i hi hif
    have hi0 : i ≠ 0 := by
      intro h
      rw [h, hroot] at hif
      cases hif
    obtain ⟨hmd, hpr⟩ := hval i hi hi0
    refine ⟨by rw [hmd]; exact hfin 0 i h0n hi, 0, by rw [hpr]; rfl, h0n, hroot⟩
  · have hold : (List.replicate n false).getD 0 true = false := by
      rw [getD_replicate, if_pos h0n]
    have hadd := countP_set_add (fun b => b) (List.replicate n false) 0 true
      h0len
    rw [hold] at hadd
    have hz : (List.replicate n false).countP (fun b => b) = 0 :=
      List.countP_eq_zero.mpr (fun b hb => by
        rw [List.eq_of_mem_replicate hb]
        exact Bool.false_ne_true)
    rw [hz] at hadd
    simpa using hadd

theorem countP_singleton {α : Type} (p : α → Bool) (a : α) :
    [a].countP p = if p a then 1 else 0 := by
  simp [List.countP_cons]

theorem primStep_inv_aux (D : List (List ℚ)) (n : Nat)
    (hfin : ∀ i j, i < n → j < n → getEntry D i j < dblMax)
    (st : PrimState) (c : Nat) (hinv : PrimInv n st)
    (hcount : st.in_tree.countP (fun b => b) = c)
    (minDist : ℚ) (minNode : Nat) (hmn : minNode < n)
    (hmf : st.in_tree.getD minNode false = false) :
    PrimInv n (PrimState.mk (st.in_tree.set minNode true)
      ((List.range n).foldl
        (relaxStep D (st.in_tree.set minNode true) minNode)
        (st.min_distance, st.parent)).1
      ((List.range n).foldl
        (relaxStep D (st.in_tree.set minNode true) minNode)
        (st.min_distance, st.parent)).2
      (st.tree_edges ++
        [(⟨(st.parent.getD minNode (-1)).toNat, minNode, minDist⟩ : Edge)])) ∧
    (st.in_tree.set minNode true).countP (fun b => b) = c + 1 ∧
    (st.tree_edges ++
      [(⟨(st.parent.getD minNode (-1)).toNat, minNode, minDist⟩ : Edge)]).length =
      st.tree_edges.length + 1 := by
  have hmnlen : minNode < st.in_tree.length := hinv.len_inTree ▸ hmn
  obtain ⟨hmdb, p, hpeq, hpn, hpt⟩ := hinv.frontier minNode hmn hmf
  have hfr : (st.parent.getD minNode (-1)).toNat = p := by
    rw [hpeq, Int.toNat_natCast]
  have hpm : p ≠ minNode := by
    intro h
    rw [h, hmf] at hpt
    cases hpt
  have hm0 : minNode ≠ 0 := by
    intro h
    rw [h, hinv.root_inTree] at hmf
    cases hmf
  have hset_self : (st.in_tree.set minNode true).getD minNode false = true :=
    getD_set_self _ _ _ _ hmnlen
  have hset_ne : ∀ v, v ≠ minNode →
      (st.in_tree.set minNode true).getD v false =
        st.in_tree.getD v false :=
    fun v hv => getD_set_ne _ _ _ (fun h => hv h.symm)
  have hnotin : ∀ e ∈ st.tree_edges, e.eto ≠ minNode := by
    intro e he h
    have := (hinv.inTree_iff minNode hmn).mpr (Or.inr ⟨e, he, h⟩)
    rw [hmf] at this
    cases this
  obtain ⟨hrl1, hrl2, hrval⟩ := relax_fold_spec D
    (st.in_tree.set minNode true) minNode (List.range n)
    (st.min_distance, st.parent)
    (by dsimp only; rw [hinv.len_minD, hinv.len_parent])
  dsimp only at hrl1 hrl2
  refine ⟨⟨?_, ?_, ?_, ?_, ?_, ?_, ?_, ?_, ?_, ?_, ?_⟩, ?_, ?_⟩
  · dsimp only
    rw [List.length_set]
    exact hinv.len_inTree
  · dsimp only
    exact hrl1.trans hinv.len_minD
  · dsimp only
    exact hrl2.trans hinv.len_parent
  · dsimp only
    exact getD_set_true_mono hinv.root_inTree
  · dsimp only
    intro e he
    rcases List.mem_append.mp he with hold | hnew
    · obtain ⟨h1, h2, h3, h4, h5⟩ := hinv.edges_ok e hold
      exact ⟨h1, h2, h3, getD_set_true_mono h4, getD_set_true_mono h5⟩
    · rcases List.mem_singleton.mp hnew with rfl
      refine ⟨?_, hmn, ?_, ?_, hset_self⟩
      · dsimp only
        rw [hfr]
        exact hpn
      · dsimp only
        rw [hfr]
        exact hpm
      · dsimp only
        rw [hfr]
        exact getD_set_true_mono hpt
  · dsimp only
    intro v hv
    by_cases hvm : v = minNode
    · subst hvm
      rw [hset_self]
      constructor
      · intro _
        exact Or.inr ⟨_, List.mem_append.mpr
          (Or.inr (List.mem_singleton.mpr rfl)), rfl⟩
      · intro _
        rfl
    · rw [hset_ne v hvm, hinv.inTree_iff v hv]
      constructor
      · rintro (rfl | ⟨e, he, hee⟩)
        · exact Or.inl rfl
        · exact Or.inr ⟨e, List.mem_append.mpr (Or.inl he), hee⟩
      · rintro (rfl | ⟨e, he, hee⟩)
        · exact Or.inl rfl
        · rcases List.mem_append.mp he with hold | hnew
          · exact Or.inr ⟨e, hold, hee⟩
          · rcases List.mem_singleton.mp hnew with rfl
            exact absurd hee.symm hvm
  · dsimp only
    rw [List.countP_append, hinv.indeg_root, countP_singleton]
    simp [hm0]
  · dsimp only
    intro v
    rw [List.countP_append, countP_singleton]
    by_cases hvm : v = minNode
    · subst hvm
      have hz : st.tree_edges.countP (fun e => e.eto = v) = 0 :=
        List.countP_eq_zero.mpr (fun e he => by
          simpa using hnotin e he)
      rw [hz]
      split <;> omega
    · have hz : (decide ((⟨(st.parent.getD minNode (-1)).toNat, minNode,
          minDist⟩ : Edge).eto = v)) = false := by
        simpa using fun h => hvm h.symm
      rw [hz]
      simpa using hinv.indeg_le v
  · dsimp only
    intro k hk
    rw [List.length_append] at hk
    by_cases hkl : k < st.tree_edges.length
    · rw [List.getD_append _ _ _ _ hkl]
      rcases hinv.ordered k hkl with h | ⟨j, hj, he⟩
      · exact Or.inl h
      · refine Or.inr ⟨j, hj, ?_⟩
        rw [List.getD_append _ _ _ _ (lt_trans hj hkl)]
        exact he
    · have hkeq : k = st.tree_edges.length := by
        simp only [List.length_singleton] at hk
        omega
      subst hkeq
      rw [List.getD_append_right _ _ _ _ (le_refl _), Nat.sub_self,
        List.getD_cons_zero]
      rcases (hinv.inTree_iff p hpn).mp hpt with h0 | ⟨e', he', hee⟩
      · refine Or.inl ?_
        dsimp only
        rw [hfr]
        exact h0
      · obtain ⟨j, hjl, hje⟩ := List.getElem_of_mem he'
        refine Or.inr ⟨j, hjl, ?_⟩
        rw [List.getD_append _ _ _ _ hjl, List.getD_eq_getElem?_getD,
          List.getElem?_eq_getElem hjl, Option.getD_some, hje, hee, hfr]
  · dsimp only
    intro v hv hvt
    by_cases hvm : v = minNode
    · rw [hvm]
      have hmono : edgeReachable (st.tree_edges ++
          [(⟨(st.parent.getD minNode (-1)).toNat, minNode, minDist⟩ : Edge)])
          0 p := edgeReachable_mono
        (fun e he => List.mem_append.mpr (Or.inl he))
        (hinv.reach p hpn hpt)
      exact Relation.ReflTransGen.tail hmono
        ⟨⟨(st.parent.getD minNode (-1)).toNat, minNode, minDist⟩,
         List.mem_append.mpr (Or.inr (List.mem_singleton.mpr rfl)),
         Or.inl ⟨hfr, rfl⟩⟩
    · rw [hset_ne v hvm] at hvt
      exact edgeReachable_mono
        (fun e he => List.mem_append.mpr (Or.inl he))
        (hinv.reach v hv hvt)
  · dsimp only
    intro i hi hif
    have him : i ≠ minNode := by
      intro h
      rw [h, hset_self] at hif
      cases hif
    have hio : st.in_tree.getD i false = false := by
      rw [← hset_ne i him]
      exact hif
    rcases hrval i with ⟨ha, hb⟩ | ⟨ha, hb⟩
    · obtain ⟨hmdi, q, hqe, hqn, hqt⟩ := hinv.frontier i hi hio
      exact ⟨by rw [ha]; exact hmdi, q, by rw [hb]; exact hqe, hqn,
        getD_set_true_mono hqt⟩
    · exact ⟨by rw [ha]; exact hfin minNode i hmn hi, minNode,
        by rw [hb], hmn, hset_self⟩
  · have hold : st.in_tree.getD minNode true = false := by
      rw [getD_eq_of_lt st.in_tree true false hmnlen]
      exact hmf
    have hadd := countP_set_add (fun b => b) st.in_tree minNode true hmnlen
    rw [hold, hcount] at hadd
    simpa using hadd
  · rw [List.length_append]
    rfl

theorem primStep_inv (D : List (List ℚ)) (n : Nat) (heuristic : Heuristic)
    (hfin : ∀ i j, i < n → j < n → getEntry D i j < dblMax)
    (st : PrimState) (c : Nat) (hinv : PrimInv n st)
    (hcount : st.in_tree.countP (fun b => b) = c) (hc : c < n) :
    PrimInv n (primStep D n heuristic st) ∧
    (primStep D n heuristic st).in_tree.countP (fun b => b) = c + 1 ∧
    (primStep D n heuristic st).tree_edges.length =
      st.tree_edges.length + 1 := by
  have hlt : st.in_tree.countP (fun b => b) < st.in_tree.length := by
    rw [hcount, hinv.len_inTree]
    exact hc
  obtain ⟨i0, hi0len, hi0f⟩ := countP_true_lt_exists_false hlt
  have hi0n : i0 < n := hinv.len_inTree ▸ hi0len
  have hi0fin : st.min_distance.getD i0 0 < dblMax :=
    (hinv.frontier i0 hi0n hi0f).1
  have hfold : primMinDist st.min_distance st.in_tree n =
      (List.range n).foldl (fun acc j =>
        if (fun i => (!(st.in_tree.getD i false)) = true) j ∧
            (fun i => st.min_distance.getD i 0) j < acc then
          (fun i => st.min_distance.getD i 0) j
        else acc) dblMax := rfl
  have hqi0 : (fun i => (!(st.in_tree.getD i false)) = true) i0 := by
    dsimp only
    rw [hi0f]
    rfl
  have hle := scanMin_le (q := fun i => (!(st.in_tree.getD i false)) = true)
    (fun i => st.min_distance.getD i 0) (List.range n) dblMax i0
    (List.mem_range.mpr hi0n) hqi0
  have hmdlt : primMinDist st.min_distance st.in_tree n < dblMax := by
    rw [hfold]
    exact lt_of_le_of_lt hle hi0fin
  rcases scanMin_cases (q := fun i => (!(st.in_tree.getD i false)) = true)
      (fun i => st.min_distance.getD i 0) (List.range n) dblMax with
    hcase | ⟨i, hi, hqi, heq⟩
  · rw [hfold, hcase] at hmdlt
    exact absurd hmdlt (lt_irrefl _)
  · have heq2 : primMinDist st.min_distance st.in_tree n =
        st.min_distance.getD i 0 := hfold.trans heq
    have hmem : i ∈ primCandidates st.min_distance st.in_tree n
        (primMinDist st.min_distance st.in_tree n) := by
      unfold primCandidates
      refine List.mem_filter.mpr ⟨hi, ?_⟩
      rw [Bool.and_eq_true]
      refine ⟨hqi, ?_⟩
      rw [heq2, sub_self, abs_zero]
      exact decide_eq_true tol_pos
    have hne : primCandidates st.min_distance st.in_tree n
        (primMinDist st.min_distance st.in_tree n) ≠ [] :=
      List.ne_nil_of_mem hmem
    have hsel := selectNodeWithTiebreak_mem D n heuristic st.min_distance
      st.in_tree (primMinDist st.min_distance st.in_tree n) hne
    unfold primCandidates at hsel
    have hpair := List.mem_filter.mp hsel
    have hmn : selectNodeWithTiebreak D n heuristic st.min_distance
        st.in_tree (primMinDist st.min_distance st.in_tree n) < n :=
      List.mem_range.mp hpair.1
    have hand := hpair.2
    rw [Bool.and_eq_true] at hand
    have hmf : st.in_tree.getD (selectNodeWithTiebreak D n heuristic
        st.min_distance st.in_tree
        (primMinDist st.min_distance st.in_tree n)) false = false := by
      simpa using hand.1
    exact primStep_inv_aux D n hfin st c hinv hcount
      (primMinDist st.min_distance st.in_tree n)
      (selectNodeWithTiebreak D n heuristic st.min_distance st.in_tree
        (primMinDist st.min_distance st.in_tree n)) hmn hmf

theorem prim_loop_inv (D : List (List ℚ)) (n : Nat) (heuristic : Heuristic)
    (hn : 2 ≤ n)
    (hfin : ∀ i j, i < n → j < n → getEntry D i j < dblMax) :
    ∀ k, k ≤ n - 1 →
      PrimInv n ((List.range k).foldl (fun st _ => primStep D n heuristic st)
        (primInit D n)) ∧
      ((List.range k).foldl (fun st _ => primStep D n heuristic st)
        (primInit D n)).in_tree.countP (fun b => b) = k + 1 ∧
      ((List.range k).foldl (fun st _ => primStep D n heuristic st)
        (primInit D n)).tree_edges.length = k := by
  intro k
  induction k with
  | zero =>
      intro _
      obtain ⟨h1, h2, h3⟩ := primInit_inv D n hn hfin
      exact ⟨h1, h2, h3⟩
  | succ k ih =>
      intro hk
      obtain ⟨h1, h2, h3⟩ := ih (Nat.le_of_succ_le hk)
      rw [List.range_succ, List.foldl_append, List.foldl_cons, List.foldl_nil]
      have hklt : k + 1 < n := by omega
      obtain ⟨g1, g2, g3⟩ := primStep_inv D n heuristic hfin _ (k + 1) h1 h2
        hklt
      exact ⟨g1, g2, by rw [g3, h3]⟩

/-- **C5** — For every symmetric distance matrix with finite entries over
`N ≥ 2` vertices and either heuristic, `MSTree::compute` (Prim starting at
vertex 0) returns exactly `N − 1` edges that, with the vertex set
`{0..N−1}`, form a connected acyclic spanning graph in which every vertex
appears in at least one edge. -/
theorem C5_mstree_spanning_tree (D : List (List ℚ)) (heuristic : Heuristic)
    (hn : 2 ≤ D.length)
    (hsym : ∀ i j, i < D.length → j < D.length →
      getEntry D i j = getEntry D j i)
    (hfin : ∀ i j, i < D.length → j < D.length →
      getEntry D i j < dblMax) :
    ∃ edges, mstreeCompute D heuristic = .ok edges ∧
      specSpanningTree D.length edges := by
  have hn0 : ¬ D.length = 0 := by omega
  obtain ⟨hinv, hcnt, hlen⟩ := prim_loop_inv D D.length heuristic hn hfin
    (D.length - 1) (le_refl _)
  refine ⟨((List.range (D.length - 1)).foldl
      (fun st _ => primStep D D.length heuristic st)
      (primInit D D.length)).tree_edges, ?_, ?_⟩
  · unfold mstreeCompute
    dsimp only
    rw [if_neg hn0]
  · have hall : ∀ v, v < D.length →
        ((List.range (D.length - 1)).foldl
          (fun st _ => primStep D D.length heuristic st)
          (primInit D D.length)).in_tree.getD v false = true := by
      intro v hv
      refine all_true_of_countP_eq_length ?_ v (by rw [hinv.len_inTree]; exact hv)
      rw [hcnt, hinv.len_inTree]
      omega
    have hone : ∀ v, 1 ≤ v → v < D.length →
        ∃ e ∈ ((List.range (D.length - 1)).foldl
          (fun st _ => primStep D D.length heuristic st)
          (primInit D D.length)).tree_edges, e.eto = v := by
      intro v hv1 hv
      rcases (hinv.inTree_iff v hv).mp (hall v hv) with rfl | he
      · omega
      · exact he
    refine ⟨hlen, ?_, hinv.indeg_root, ?_, hinv.ordered, ?_, ?_⟩
    · intro e he
      obtain ⟨h1, h2, h3, _, _⟩ := hinv.edges_ok e he
      exact ⟨h1, h2, h3⟩
    · intro v hv1 hv
      obtain ⟨e, he, hev⟩ := hone v hv1 hv
      refine Nat.le_antisymm (hinv.indeg_le v) ?_
      exact List.countP_pos.mpr ⟨e, he, by simp [hev]⟩
    · intro v hv
      exact hinv.reach v hv (hall v hv)
    · intro v hv
      by_cases hv0 : v = 0
      · subst hv0
        have h0lt : 0 < ((List.range (D.length - 1)).foldl
            (fun st _ => primStep D D.length heuristic st)
            (primInit D D.length)).tree_edges.length := by
          rw [hlen]
          omega
        have hfr0 := hinv.ordered 0 h0lt
        rcases hfr0 with hfr0 | ⟨j, hj, _⟩
        · refine ⟨_, ?_, Or.inl hfr0⟩
          rw [List.getD_eq_getElem?_getD, List.getElem?_eq_getElem h0lt,
            Option.getD_some]
          exact List.get_mem _ 0 h0lt
        · omega
      · obtain ⟨e, he, hev⟩ := hone v (by omega) hv
        exact ⟨e, he, Or.inr hev⟩

/-- Concrete 3-strain symmetric matrix for the C5 witness. -/
def c5Matrix : List (List ℚ) := [[0, 1, 2], [1, 0, 1], [2, 1, 0]]

set_option maxRecDepth 8000 in
theorem C5_mstree_spanning_tree_witness :
    ∃ edges, mstreeCompute c5Matrix .HARMONIC = .ok edges ∧
      specSpanningTree c5Matrix.length edges :=
  C5_mstree_spanning_tree c5Matrix .HARMONIC (by decide)
    (by
      intro i j hi hj
      have hi3 : i < 3 := hi
      have hj3 : j < 3 := hj
      clear hi hj
      interval_cases i <;> interval_cases j <;> with_unfolding_all decide)
    (by
      intro i j hi hj
      have hi3 : i < 3 := hi
      have hj3 : j < 3 := hj
      clear hi hj
      interval_cases i <;> interval_cases j <;> with_unfolding_all decide)

end GrapeTree
